import Mathlib

/-!
The file kv_store.c: a linked-list key-value store filled from a flat byte buffer

A shallow embedding of `deserialize`, `lookup` and `delete` from `kv_store.c`,
followed by theorems about them.

* A buffer is a list of bytes; the cursor `pointer` is an offset into it and
  `end` is the buffer's length.
* The linked list is a `List KVPAIR`: the `next` link of a node is the tail of
  the list, the `NULL` list is `[]`.
* Every `memcpy` from the buffer is a checked read: reading at or past the end
  of the buffer is undefined behaviour in C and is a `Fault` here.
-/

set_option autoImplicit false

namespace KvStore

/-! ## Data model -/

/-- One `char` of the buffer. -/
abbrev Byte := Fin 256

/-- Modelled from the spec: `kv_store.h` is absent, and with it the platform's
`sizeof(long)`; the record layout of the spec gives the key 8 bytes. -/
def sizeofLong : Nat := 8

/-- Modelled from the spec: `kv_store.h` is absent, and with it the platform's
`sizeof(unsigned int)`; the record layout of the spec gives the size 4 bytes. -/
def sizeofUInt : Nat := 4

/-- Modelled from the spec: `UINT_MAX + 1` for the 32-bit unsigned `size` field. -/
def uintModulus : Nat := 2 ^ 32

/-- Byte order of the host; `memcpy` into an integer object reads the bytes in
this order. -/
inductive Endian where
  | little
  | big
  deriving DecidableEq, Repr

/-- Modelled from the spec: the `KVPAIR` node declared in the absent
`kv_store.h`, with the fields `deserialize` fills: a signed `long` key, an
unsigned 32-bit `size`, and the heap block `val` (all of its bytes). The `next`
link is the tail of the Lean list the node sits in. -/
structure KVPAIR where
  key : Int
  size : Nat
  val : List Byte
  deriving DecidableEq, Repr

/-- Undefined behaviour the C code can run into, and the exhaustion of the
loop budget of the model. -/
inductive Fault where
  | readPastEnd
  | writePastAlloc
  | outOfFuel
  deriving DecidableEq, Repr

/-- Results of the model can be compared by evaluation. -/
instance instDecidableEqExcept {ε α : Type} [DecidableEq ε] [DecidableEq α] :
    DecidableEq (Except ε α)
  | .ok a, .ok b =>
    if h : a = b then isTrue (congrArg Except.ok h)
    else isFalse (fun h' => h (Except.ok.inj h'))
  | .error a, .error b =>
    if h : a = b then isTrue (congrArg Except.error h)
    else isFalse (fun h' => h (Except.error.inj h'))
  | .ok _, .error _ => isFalse (fun h => Except.noConfusion h)
  | .error _, .ok _ => isFalse (fun h => Except.noConfusion h)

/-! ## Integers in memory -/

/-- The unsigned number held by bytes stored least significant first. -/
def leValue : List Byte → Nat
  | [] => 0
  | b :: bs => b.val + 256 * leValue bs

/-- The unsigned number held by bytes in host order. -/
def hostValue (e : Endian) (bs : List Byte) : Nat :=
  match e with
  | .little => leValue bs
  | .big => leValue bs.reverse

/-- The `long` that `memcpy(&(node->key), pointer, sizeof(long))` leaves in
`node->key`: the bytes read as a 64-bit two's complement number. -/
def loadLong (e : Endian) (bs : List Byte) : Int :=
  if hostValue e bs < 2 ^ 63 then (hostValue e bs : Int)
  else (hostValue e bs : Int) - 2 ^ 64

/-- The `unsigned int` that `memcpy(&(node->size), pointer, sizeof(unsigned int))`
leaves in `node->size`. -/
def loadUInt (e : Endian) (bs : List Byte) : Nat :=
  hostValue e bs

/-! ## deserialize -/

/-- The source bytes of `memcpy(dst, buf + pointer, n)`: the `n` bytes at
offset `pointer`, or a fault when one of them lies at or past the end. -/
def readBytes (buf : List Byte) (pointer n : Nat) : Except Fault (List Byte) :=
  if pointer + n ≤ buf.length then .ok ((buf.drop pointer).take n)
  else .error .readPastEnd

/-- The `while` loop of `deserialize`: `pointer` is the cursor's offset, `list`
is the list from `head` to `tail` built so far, and the first argument bounds
the number of iterations. -/
def deserializeLoop (e : Endian) (buf : List Byte) :
    Nat → Nat → List KVPAIR → Except Fault (List KVPAIR)
  | 0, _, _ => .error .outOfFuel
  | fuel + 1, pointer, list =>
    if pointer + sizeofLong + sizeofUInt < buf.length then do
      let keyBytes ← readBytes buf pointer sizeofLong
      let key := loadLong e keyBytes
      let pointer := pointer + sizeofLong
      let sizeBytes ← readBytes buf pointer sizeofUInt
      let size := loadUInt e sizeBytes
      let pointer := pointer + sizeofUInt
      -- malloc((node->size)+1): the sum is computed in `unsigned int`
      let allocated := (size + 1) % uintModulus
      if allocated < size + 1 then .error .writePastAlloc
      else do
        let valBytes ← readBytes buf pointer size
        let val := valBytes ++ [0]
        let pointer := pointer + size
        deserializeLoop e buf fuel pointer (list ++ [{ key := key, size := size, val := val }])
    else .ok list

/-- `deserialize(buf, buffer_size)` with `buffer_size = buf.length`. Every
iteration moves the cursor forward by at least 12 bytes, so `buf.length + 1`
iterations are never used up. -/
def deserialize (e : Endian) (buf : List Byte) : Except Fault (List KVPAIR) :=
  deserializeLoop e buf (buf.length + 1) 0 []

/-! ## lookup and delete -/

/-- `lookup(list, key)`: walk `current` from the head, return the first node
whose key is `key`, `none` for `NULL`. -/
def lookup : List KVPAIR → Int → Option KVPAIR
  | [], _ => none
  | current :: next, key =>
    if current.key = key then some current else lookup next key

/-- The `while` loop of `delete`: `before` holds the nodes from the head up to
and including `prev` (empty when `prev == NULL`), the second list starts at
`current`. Returns the `int` result and the list the handle refers to
afterwards. -/
def deleteLoop (key : Int) : List KVPAIR → List KVPAIR → Int × List KVPAIR
  | before, [] => (0, before)
  | before, current :: next =>
    if current.key = key then
      match before with
      | [] => (1, next)
      | _ :: _ => (1, before ++ next)
    else deleteLoop key (before ++ [current]) next

/-- `delete(&list, key)`: the returned `int` and the list after the call. -/
def delete (list : List KVPAIR) (key : Int) : Int × List KVPAIR :=
  deleteLoop key [] list

/-! ## The wire format -/

/-- One record of the wire format: a key and the value bytes; the size field
is the number of value bytes. -/
structure Record where
  key : Int
  value : List Byte
  deriving DecidableEq, Repr

/-- A record is well formed when the key fits a signed 64-bit integer and the
number of value bytes fits an unsigned 32-bit integer. -/
def Record.WellFormed (r : Record) : Prop :=
  -(2 ^ 63 : Int) ≤ r.key ∧ r.key < 2 ^ 63 ∧ r.value.length < uintModulus

instance (r : Record) : Decidable r.WellFormed := by
  unfold Record.WellFormed; exact inferInstance

/-- The `n` low bytes of `u`, least significant first. -/
def leBytes : Nat → Nat → List Byte
  | 0, _ => []
  | n + 1, u => Fin.ofNat (u % 256) :: leBytes n (u / 256)

/-- The `n` low bytes of `u` in host order. -/
def hostBytes (e : Endian) (n u : Nat) : List Byte :=
  match e with
  | .little => leBytes n u
  | .big => (leBytes n u).reverse

/-- The 8 bytes of a `long` in memory (two's complement, host order). -/
def storeLong (e : Endian) (k : Int) : List Byte :=
  hostBytes e sizeofLong (k % 2 ^ 64).toNat

/-- The bytes of one record: key, size, then the value bytes. -/
def encodeRecord (e : Endian) (r : Record) : List Byte :=
  storeLong e r.key ++ (hostBytes e sizeofUInt r.value.length ++ r.value)

/-- A buffer that is exactly the concatenation of the given records. -/
def encodeRecords (e : Endian) : List Record → List Byte
  | [] => []
  | r :: rs => encodeRecord e r ++ encodeRecords e rs

/-- The node `deserialize` builds for a record: the block it allocates holds
the value bytes and a terminating zero byte. -/
def Record.toEntry (r : Record) : KVPAIR :=
  { key := r.key, size := r.value.length, val := r.value ++ [0] }

/-- The records of a buffer that the loop of `deserialize` gets to: all of
them, except a last record that has no value bytes. -/
def parsedRecords : List Record → List Record
  | [] => []
  | [r] => if r.value = [] then [] else [r]
  | r :: r' :: rs => r :: parsedRecords (r' :: rs)

/-! ## What one run of the loop leaves behind -/

/-- The node `n` is what one iteration of the loop builds with its cursor at
offset `off`: more than 12 bytes remain, key and size are the header at `off`,
the size plus one fits an `unsigned int`, the value bytes lie inside the
buffer, and the block holds them followed by a zero byte. -/
def entryAt (e : Endian) (buf : List Byte) (off : Nat) (n : KVPAIR) : Prop :=
  off + 12 < buf.length ∧
  n.key = loadLong e ((buf.drop off).take 8) ∧
  n.size = loadUInt e ((buf.drop (off + 8)).take 4) ∧
  n.size + 1 < uintModulus ∧
  off + 12 + n.size ≤ buf.length ∧
  n.val = (buf.drop (off + 12)).take n.size ++ [0]

/-- The offset of the cursor after the iterations that built the nodes of
`list`, when it was at `off` before them: every node moves it by its 12 header
bytes and its `size` value bytes. -/
def cursorAfter : Nat → List KVPAIR → Nat
  | off, [] => off
  | off, n :: rest => cursorAfter (off + 12 + n.size) rest

/-- The nodes of `list` are what consecutive iterations build, the first with
the cursor at `off`, each next one where the one before left the cursor. -/
def parsedFrom (e : Endian) (buf : List Byte) : Nat → List KVPAIR → Prop
  | _, [] => True
  | off, n :: rest => entryAt e buf off n ∧ parsedFrom e buf (off + 12 + n.size) rest

/-- The `unsigned int` the loop reads into `node->size` with its cursor at
offset `off`: the 4 bytes behind the 8 key bytes. -/
def sizeAt (e : Endian) (buf : List Byte) (off : Nat) : Nat :=
  loadUInt e ((buf.drop (off + 8)).take 4)

/-- The node the loop fills with its cursor at offset `off`: the key from the
8 bytes at `off`, the size from the next 4 bytes, and the block with the `size`
bytes behind the header followed by the zero byte. -/
def nodeAt (e : Endian) (buf : List Byte) (off : Nat) : KVPAIR :=
  { key := loadLong e ((buf.drop off).take 8),
    size := sizeAt e buf off,
    val := (buf.drop (off + 12)).take (sizeAt e buf off) ++ [0] }

/-- A record whose value has `UINT_MAX` bytes, all of them zero. -/
def uintMaxRecord (key : Int) : Record :=
  { key := key, value := List.replicate (uintModulus - 1) 0 }

/-! ## Facts about lookup and delete -/

/-- A list with an entry of key `key` splits at the first such entry. -/
theorem exists_first_match (key : Int) (list : List KVPAIR)
    (h : ∃ x ∈ list, x.key = key) :
    ∃ pre found post, list = pre ++ found :: post ∧ found.key = key ∧
      ∀ x ∈ pre, x.key ≠ key := by
  induction list with
  | nil => obtain ⟨x, hx, _⟩ := h; simp at hx
  | cons a rest ih =>
    by_cases ha : a.key = key
    · exact ⟨[], a, rest, rfl, ha, by simp⟩
    · have h' : ∃ x ∈ rest, x.key = key := by
        obtain ⟨x, hx, hk⟩ := h
        rcases List.mem_cons.mp hx with rfl | hx
        · exact absurd hk ha
        · exact ⟨x, hx, hk⟩
      obtain ⟨pre, found, post, hl, hk, hpre⟩ := ih h'
      refine ⟨a :: pre, found, post, by simp [hl], hk, ?_⟩
      intro x hx
      rcases List.mem_cons.mp hx with rfl | hx
      · exact ha
      · exact hpre x hx

theorem lookup_of_no_match (key : Int) (list : List KVPAIR)
    (h : ∀ x ∈ list, x.key ≠ key) : lookup list key = none := by
  induction list with
  | nil => rfl
  | cons a rest ih =>
    have ha : a.key ≠ key := h a (by simp)
    simp only [lookup, if_neg ha]
    exact ih (fun x hx => h x (by simp [hx]))

theorem lookup_of_split (key : Int) (pre : List KVPAIR) (found : KVPAIR)
    (post : List KVPAIR) (hpre : ∀ x ∈ pre, x.key ≠ key) (hk : found.key = key) :
    lookup (pre ++ found :: post) key = some found := by
  induction pre with
  | nil => simp [lookup, hk]
  | cons a rest ih =>
    have ha : a.key ≠ key := hpre a (by simp)
    simp only [List.cons_append, lookup, if_neg ha]
    exact ih (fun x hx => hpre x (by simp [hx]))

theorem deleteLoop_of_no_match (key : Int) (list before : List KVPAIR)
    (h : ∀ x ∈ list, x.key ≠ key) :
    deleteLoop key before list = (0, before ++ list) := by
  induction list generalizing before with
  | nil => simp [deleteLoop]
  | cons a rest ih =>
    have ha : a.key ≠ key := h a (by simp)
    simp only [deleteLoop, if_neg ha]
    rw [ih _ (fun x hx => h x (by simp [hx]))]
    simp

theorem deleteLoop_of_split (key : Int) (pre : List KVPAIR) (found : KVPAIR)
    (post before : List KVPAIR) (hpre : ∀ x ∈ pre, x.key ≠ key)
    (hk : found.key = key) :
    deleteLoop key before (pre ++ found :: post) = (1, before ++ (pre ++ post)) := by
  induction pre generalizing before with
  | nil =>
    cases before with
    | nil => simp [deleteLoop, hk]
    | cons b bs => simp [deleteLoop, hk]
  | cons a rest ih =>
    have ha : a.key ≠ key := hpre a (by simp)
    have step : deleteLoop key before (a :: (rest ++ found :: post)) =
        deleteLoop key (before ++ [a]) (rest ++ found :: post) := by
      simp only [deleteLoop, if_neg ha]
    rw [List.cons_append, step, ih _ (fun x hx => hpre x (by simp [hx]))]
    simp

theorem delete_of_no_match (key : Int) (list : List KVPAIR)
    (h : ∀ x ∈ list, x.key ≠ key) : delete list key = (0, list) := by
  simpa [delete] using deleteLoop_of_no_match key list [] h

theorem delete_of_split (key : Int) (pre : List KVPAIR) (found : KVPAIR)
    (post : List KVPAIR) (hpre : ∀ x ∈ pre, x.key ≠ key) (hk : found.key = key) :
    delete (pre ++ found :: post) key = (1, pre ++ post) := by
  simpa [delete] using deleteLoop_of_split key pre found post [] hpre hk

/-- Either no entry has the key, or some entry has it. -/
theorem no_match_or_match (key : Int) (list : List KVPAIR) :
    (∀ x ∈ list, x.key ≠ key) ∨ ∃ x ∈ list, x.key = key := by
  by_cases h : ∃ x ∈ list, x.key = key
  · exact Or.inr h
  · left
    intro x hx hk
    exact h ⟨x, hx, hk⟩

/-! ## Facts about integers in memory -/

theorem leBytes_length (n u : Nat) : (leBytes n u).length = n := by
  induction n generalizing u with
  | zero => rfl
  | succ n ih => simp [leBytes, ih]

theorem leValue_leBytes (n u : Nat) : leValue (leBytes n u) = u % 256 ^ n := by
  induction n generalizing u with
  | zero => simp [leBytes, leValue, Nat.mod_one]
  | succ n ih =>
    have hb : (Fin.ofNat (u % 256) : Fin 256).val = u % 256 := by
      simp [Fin.ofNat]
    simp only [leBytes, leValue, ih, hb]
    rw [pow_succ, Nat.mul_comm (256 ^ n) 256, Nat.mod_mul]

theorem hostBytes_length (e : Endian) (n u : Nat) : (hostBytes e n u).length = n := by
  cases e <;> simp [hostBytes, leBytes_length]

theorem hostValue_hostBytes (e : Endian) (n u : Nat) :
    hostValue e (hostBytes e n u) = u % 256 ^ n := by
  cases e <;> simp [hostValue, hostBytes, leValue_leBytes]

theorem storeLong_length (e : Endian) (k : Int) : (storeLong e k).length = 8 := by
  simp [storeLong, hostBytes_length, sizeofLong]

theorem loadLong_storeLong (e : Endian) (k : Int)
    (hlo : -(2 ^ 63 : Int) ≤ k) (hhi : k < 2 ^ 63) :
    loadLong e (storeLong e k) = k := by
  have hpos : (0 : Int) ≤ k % 2 ^ 64 := Int.emod_nonneg k (by norm_num)
  have hlt : k % 2 ^ 64 < 2 ^ 64 := Int.emod_lt_of_pos k (by norm_num)
  have hv : hostValue e (storeLong e k) = (k % 2 ^ 64).toNat := by
    rw [storeLong, hostValue_hostBytes]
    apply Nat.mod_eq_of_lt
    have : ((k % 2 ^ 64).toNat : Int) < 2 ^ 64 := by rw [Int.toNat_of_nonneg hpos]; exact hlt
    have h2 : (256 : Nat) ^ sizeofLong = 2 ^ 64 := by norm_num [sizeofLong]
    rw [h2]
    exact_mod_cast this
  have hcast : ((k % 2 ^ 64).toNat : Int) = k % 2 ^ 64 := Int.toNat_of_nonneg hpos
  unfold loadLong
  rw [hv]
  by_cases hk : 0 ≤ k
  · have hmod : k % 2 ^ 64 = k := Int.emod_eq_of_lt hk (by omega)
    have hsmall : (k % 2 ^ 64).toNat < 2 ^ 63 := by
      have : ((k % 2 ^ 64).toNat : Int) < 2 ^ 63 := by rw [hcast, hmod]; exact hhi
      exact_mod_cast this
    rw [if_pos hsmall, hcast, hmod]
  · have hmod : k % 2 ^ 64 = k + 2 ^ 64 := by
      have h1 : (k + 2 ^ 64) % 2 ^ 64 = k + 2 ^ 64 :=
        Int.emod_eq_of_lt (by omega) (by omega)
      rw [← h1, Int.add_emod_self]
    have hbig : ¬ (k % 2 ^ 64).toNat < 2 ^ 63 := by
      intro hc
      have : ((k % 2 ^ 64).toNat : Int) < 2 ^ 63 := by exact_mod_cast hc
      rw [hcast, hmod] at this
      omega
    rw [if_neg hbig, hcast, hmod]
    omega

theorem loadUInt_hostBytes (e : Endian) (n : Nat) (h : n < uintModulus) :
    loadUInt e (hostBytes e sizeofUInt n) = n := by
  rw [loadUInt, hostValue_hostBytes]
  apply Nat.mod_eq_of_lt
  have h2 : (256 : Nat) ^ sizeofUInt = uintModulus := by norm_num [sizeofUInt, uintModulus]
  rw [h2]
  exact h

/-! ## Facts about deserialize -/

theorem readBytes_of_split (buf pre a rest : List Byte) (pointer n : Nat)
    (hbuf : buf = pre ++ (a ++ rest)) (hp : pointer = pre.length) (hn : n = a.length) :
    readBytes buf pointer n = .ok a := by
  subst hbuf hp hn
  have hle : pre.length + a.length ≤ (pre ++ (a ++ rest)).length := by
    simp only [List.length_append]; omega
  rw [readBytes, if_pos hle, List.drop_left, List.take_left]

theorem encodeRecord_length (e : Endian) (r : Record) :
    (encodeRecord e r).length = 12 + r.value.length := by
  simp only [encodeRecord, List.length_append, storeLong_length, hostBytes_length, sizeofUInt]
  omega

/-- The loop leaves with the list built so far once at most 12 bytes remain. -/
theorem deserializeLoop_exit (e : Endian) (buf : List Byte) (fuel pointer : Nat)
    (list : List KVPAIR) (h : buf.length ≤ pointer + 12) :
    deserializeLoop e buf (fuel + 1) pointer list = .ok list := by
  have hc : ¬ pointer + sizeofLong + sizeofUInt < buf.length := by
    simp only [sizeofLong, sizeofUInt]; omega
  rw [deserializeLoop, if_neg hc]

/-- One iteration on a well-formed record that is followed by at least one
more byte than its header. -/
theorem deserializeLoop_record (e : Endian) (pre rest : List Byte) (r : Record)
    (hr : r.WellFormed) (hsz : r.value.length + 1 < uintModulus)
    (hmore : 0 < r.value.length + rest.length) (fuel : Nat) (list : List KVPAIR) :
    deserializeLoop e (pre ++ (encodeRecord e r ++ rest)) (fuel + 1) pre.length list =
      deserializeLoop e (pre ++ (encodeRecord e r ++ rest)) fuel
        (pre ++ encodeRecord e r).length (list ++ [r.toEntry]) := by
  obtain ⟨hlo, hhi, hlen⟩ := hr
  have hc : pre.length + sizeofLong + sizeofUInt <
      (pre ++ (encodeRecord e r ++ rest)).length := by
    simp only [List.length_append, encodeRecord_length, sizeofLong, sizeofUInt]; omega
  have hkey : readBytes (pre ++ (encodeRecord e r ++ rest)) pre.length sizeofLong =
      .ok (storeLong e r.key) :=
    readBytes_of_split _ pre (storeLong e r.key)
      ((hostBytes e sizeofUInt r.value.length ++ r.value) ++ rest) _ _
      (by simp [encodeRecord]) rfl (by simp [storeLong_length, sizeofLong])
  have hsize : readBytes (pre ++ (encodeRecord e r ++ rest)) (pre.length + sizeofLong)
      sizeofUInt = .ok (hostBytes e sizeofUInt r.value.length) :=
    readBytes_of_split _ (pre ++ storeLong e r.key) (hostBytes e sizeofUInt r.value.length)
      (r.value ++ rest) _ _
      (by simp [encodeRecord]) (by simp [storeLong_length, sizeofLong])
      (by simp [hostBytes_length])
  have hval : readBytes (pre ++ (encodeRecord e r ++ rest))
      (pre.length + sizeofLong + sizeofUInt) r.value.length = .ok r.value :=
    readBytes_of_split _ (pre ++ storeLong e r.key ++ hostBytes e sizeofUInt r.value.length)
      r.value rest _ _
      (by simp [encodeRecord])
      (by simp only [List.length_append, storeLong_length, hostBytes_length, sizeofLong])
      rfl
  have halloc : ¬ (r.value.length + 1) % uintModulus < r.value.length + 1 := by
    rw [Nat.mod_eq_of_lt hsz]; omega
  have hptr : pre.length + sizeofLong + sizeofUInt + r.value.length =
      (pre ++ encodeRecord e r).length := by
    simp only [List.length_append, encodeRecord_length, sizeofLong, sizeofUInt]; omega
  rw [deserializeLoop, if_pos hc, hkey]
  simp only [bind, Except.bind, hsize, loadUInt_hostBytes e _ hlen, if_neg halloc, hval,
    loadLong_storeLong e _ hlo hhi, hptr, Record.toEntry]

theorem encodeRecords_length_ge (e : Endian) (rs : List Record) :
    12 * rs.length ≤ (encodeRecords e rs).length := by
  induction rs with
  | nil => simp [encodeRecords]
  | cons r rs ih =>
    simp only [encodeRecords, List.length_append, encodeRecord_length, List.length_cons]
    omega

theorem parsedRecords_cons (r : Record) (rs : List Record)
    (h : r.value ≠ [] ∨ rs ≠ []) : parsedRecords (r :: rs) = r :: parsedRecords rs := by
  cases rs with
  | nil =>
    rcases h with h | h
    · simp [parsedRecords, h]
    · exact absurd rfl h
  | cons r' rs => simp [parsedRecords]

theorem parsedRecords_append_of_value (rs : List Record) (r : Record)
    (h : r.value ≠ []) : parsedRecords (rs ++ [r]) = rs ++ [r] := by
  induction rs with
  | nil => simp [parsedRecords, h]
  | cons a rs ih =>
    rw [List.cons_append, parsedRecords_cons a _ (Or.inr (by simp)), ih]

theorem parsedRecords_append_of_empty (rs : List Record) (r : Record)
    (h : r.value = []) : parsedRecords (rs ++ [r]) = rs := by
  induction rs with
  | nil => simp [parsedRecords, h]
  | cons a rs ih =>
    rw [List.cons_append, parsedRecords_cons a _ (Or.inr (by simp)), ih]

/-- The records the loop gets to are the first records of the buffer. -/
theorem parsedRecords_initial (rs : List Record) : parsedRecords rs <+: rs := by
  rcases List.eq_nil_or_concat rs with rfl | ⟨init, last, rfl⟩
  · simp [parsedRecords]
  · by_cases h : last.value = []
    · rw [List.concat_eq_append, parsedRecords_append_of_empty _ _ h]
      exact List.prefix_append _ _
    · rw [List.concat_eq_append, parsedRecords_append_of_value _ _ h]

/-- The loop on a buffer whose unread part is a concatenation of well-formed
records: it appends the node of every record it gets to and returns. -/
theorem deserializeLoop_records (e : Endian) (rs : List Record)
    (hwf : ∀ r ∈ rs, r.WellFormed ∧ r.value.length + 1 < uintModulus)
    (pre : List Byte) (fuel : Nat) (hfuel : rs.length < fuel) (list : List KVPAIR) :
    deserializeLoop e (pre ++ encodeRecords e rs) fuel pre.length list =
      .ok (list ++ (parsedRecords rs).map Record.toEntry) := by
  induction rs generalizing pre fuel list with
  | nil =>
    obtain ⟨f, rfl⟩ : ∃ f, fuel = f + 1 := ⟨fuel - 1, by omega⟩
    rw [deserializeLoop_exit _ _ _ _ _ (by simp [encodeRecords])]
    simp [parsedRecords]
  | cons r rs ih =>
    obtain ⟨f, rfl⟩ : ∃ f, fuel = f + 1 := ⟨fuel - 1, by omega⟩
    have hf : rs.length < f := by simpa using hfuel
    by_cases hlast : r.value = [] ∧ rs = []
    · obtain ⟨hv, rfl⟩ := hlast
      rw [deserializeLoop_exit _ _ _ _ _
        (by simp [encodeRecords, encodeRecord_length, hv])]
      simp [parsedRecords, hv]
    · have hor : r.value ≠ [] ∨ rs ≠ [] := by
        by_cases hv : r.value = []
        · exact Or.inr (fun hrs => hlast ⟨hv, hrs⟩)
        · exact Or.inl hv
      have hmore : 0 < r.value.length + (encodeRecords e rs).length := by
        rcases hor with hv | hrs
        · have := List.length_pos.mpr hv
          omega
        · have h1 := encodeRecords_length_ge e rs
          have h2 := List.length_pos.mpr hrs
          omega
      obtain ⟨hr, hsz⟩ := hwf r (by simp)
      have hstep := deserializeLoop_record e pre (encodeRecords e rs) r hr hsz hmore f list
      have hih := ih (fun x hx => hwf x (by simp [hx])) (pre ++ encodeRecord e r) f hf
        (list ++ [r.toEntry])
      rw [List.append_assoc] at hih
      rw [encodeRecords, hstep, hih, parsedRecords_cons r rs hor]
      simp

/-- The result of `deserialize` on a concatenation of well-formed records. -/
theorem deserialize_records (e : Endian) (rs : List Record)
    (hwf : ∀ r ∈ rs, r.WellFormed ∧ r.value.length + 1 < uintModulus) :
    deserialize e (encodeRecords e rs) = .ok ((parsedRecords rs).map Record.toEntry) := by
  have hlen := encodeRecords_length_ge e rs
  have h := deserializeLoop_records e rs hwf [] ((encodeRecords e rs).length + 1)
    (by omega) []
  simpa [deserialize] using h

/-- One iteration on a record whose size is `UINT_MAX`: `size + 1` wraps to 0,
the block is too small for the copy. -/
theorem deserializeLoop_record_overflow (e : Endian) (pre rest : List Byte) (r : Record)
    (hr : r.WellFormed) (hsz : r.value.length + 1 = uintModulus)
    (fuel : Nat) (list : List KVPAIR) :
    deserializeLoop e (pre ++ (encodeRecord e r ++ rest)) (fuel + 1) pre.length list =
      .error .writePastAlloc := by
  obtain ⟨_, _, hlen⟩ := hr
  have hc : pre.length + sizeofLong + sizeofUInt <
      (pre ++ (encodeRecord e r ++ rest)).length := by
    simp only [List.length_append, encodeRecord_length, sizeofLong, sizeofUInt]
    simp only [uintModulus] at hsz
    omega
  have hkey : readBytes (pre ++ (encodeRecord e r ++ rest)) pre.length sizeofLong =
      .ok (storeLong e r.key) :=
    readBytes_of_split _ pre (storeLong e r.key)
      ((hostBytes e sizeofUInt r.value.length ++ r.value) ++ rest) _ _
      (by simp [encodeRecord]) rfl (by simp [storeLong_length, sizeofLong])
  have hsize : readBytes (pre ++ (encodeRecord e r ++ rest)) (pre.length + sizeofLong)
      sizeofUInt = .ok (hostBytes e sizeofUInt r.value.length) :=
    readBytes_of_split _ (pre ++ storeLong e r.key) (hostBytes e sizeofUInt r.value.length)
      (r.value ++ rest) _ _
      (by simp [encodeRecord]) (by simp [storeLong_length, sizeofLong])
      (by simp [hostBytes_length])
  have halloc : (r.value.length + 1) % uintModulus < r.value.length + 1 := by
    rw [hsz, Nat.mod_self]; simp [uintModulus]
  rw [deserializeLoop, if_pos hc, hkey]
  simp only [bind, Except.bind, hsize, loadUInt_hostBytes e _ hlen, if_pos halloc]

/-- A list with an element satisfying `p` splits at the first such element. -/
theorem exists_first_of_exists {α : Type} (p : α → Prop) (l : List α)
    (h : ∃ x ∈ l, p x) :
    ∃ pre x post, l = pre ++ x :: post ∧ p x ∧ ∀ y ∈ pre, ¬ p y := by
  induction l with
  | nil => obtain ⟨x, hx, _⟩ := h; simp at hx
  | cons a rest ih =>
    by_cases ha : p a
    · exact ⟨[], a, rest, rfl, ha, by simp⟩
    · have h' : ∃ x ∈ rest, p x := by
        obtain ⟨x, hx, hpx⟩ := h
        rcases List.mem_cons.mp hx with rfl | hx
        · exact absurd hpx ha
        · exact ⟨x, hx, hpx⟩
      obtain ⟨pre, x, post, hl, hpx, hpre⟩ := ih h'
      refine ⟨a :: pre, x, post, by simp [hl], hpx, ?_⟩
      intro y hy
      rcases List.mem_cons.mp hy with rfl | hy
      · exact ha
      · exact hpre y hy

/-- The loop faults at the first record whose size is `UINT_MAX`. -/
theorem deserializeLoop_records_overflow (e : Endian) (good : List Record) (bad : Record)
    (rest : List Record)
    (hgood : ∀ r ∈ good, r.WellFormed ∧ r.value.length + 1 < uintModulus)
    (hbad : bad.WellFormed) (hsz : bad.value.length + 1 = uintModulus)
    (pre : List Byte) (fuel : Nat) (hfuel : good.length < fuel) (list : List KVPAIR) :
    deserializeLoop e (pre ++ encodeRecords e (good ++ bad :: rest)) fuel pre.length list =
      .error .writePastAlloc := by
  induction good generalizing pre fuel list with
  | nil =>
    obtain ⟨f, rfl⟩ : ∃ f, fuel = f + 1 := ⟨fuel - 1, by omega⟩
    rw [List.nil_append, encodeRecords]
    exact deserializeLoop_record_overflow e pre _ bad hbad hsz f list
  | cons r good ih =>
    obtain ⟨f, rfl⟩ : ∃ f, fuel = f + 1 := ⟨fuel - 1, by omega⟩
    have hf : good.length < f := by simpa using hfuel
    obtain ⟨hr, hrsz⟩ := hgood r (by simp)
    have hmore : 0 < r.value.length + (encodeRecords e (good ++ bad :: rest)).length := by
      have h1 := encodeRecords_length_ge e (good ++ bad :: rest)
      simp only [List.length_append, List.length_cons] at h1
      omega
    have hstep := deserializeLoop_record e pre (encodeRecords e (good ++ bad :: rest)) r
      hr hrsz hmore f list
    have hih := ih (fun x hx => hgood x (by simp [hx])) (pre ++ encodeRecord e r) f hf
      (list ++ [r.toEntry])
    rw [List.append_assoc] at hih
    rw [List.cons_append, encodeRecords, hstep, hih]

/-- On a concatenation of well-formed records `deserialize` either returns the
nodes of the records it gets to, or faults on a record of size `UINT_MAX`. -/
theorem deserialize_wellFormed (e : Endian) (rs : List Record)
    (hwf : ∀ r ∈ rs, r.WellFormed) :
    deserialize e (encodeRecords e rs) = .ok ((parsedRecords rs).map Record.toEntry) ∨
      deserialize e (encodeRecords e rs) = .error .writePastAlloc := by
  by_cases hall : ∀ r ∈ rs, r.value.length + 1 < uintModulus
  · exact Or.inl (deserialize_records e rs (fun r hr => ⟨hwf r hr, hall r hr⟩))
  · right
    have hex : ∃ r ∈ rs, ¬ r.value.length + 1 < uintModulus := by
      by_contra hcon
      exact hall (fun r hr => by
        by_contra hlt
        exact hcon ⟨r, hr, hlt⟩)
    obtain ⟨good, bad, rest, hsplit, hbad, hgood⟩ :=
      exists_first_of_exists (fun r : Record => ¬ r.value.length + 1 < uintModulus) rs hex
    have hbadwf : bad.WellFormed := hwf bad (by simp [hsplit])
    have hsz : bad.value.length + 1 = uintModulus := by
      have := hbadwf.2.2
      omega
    have hlen := encodeRecords_length_ge e rs
    have hgl : good.length ≤ rs.length := by simp [hsplit]
    have h := deserializeLoop_records_overflow e good bad rest
      (fun r hr => ⟨hwf r (by simp [hsplit, hr]), by
        have := hgood r hr
        simpa using this⟩)
      hbadwf hsz [] ((encodeRecords e rs).length + 1) (by omega) []
    rw [← hsplit] at h
    simpa [deserialize] using h

theorem encodeRecords_append (e : Endian) (a b : List Record) :
    encodeRecords e (a ++ b) = encodeRecords e a ++ encodeRecords e b := by
  induction a with
  | nil => simp [encodeRecords]
  | cons r a ih => simp [encodeRecords, ih]

/-- The value bytes of the `i`-th record sit in the buffer right after the
record's 12-byte header. -/
theorem value_in_buffer (e : Endian) (rs : List Record) (i : Nat) (r : Record)
    (hr : rs[i]? = some r) :
    ((encodeRecords e rs).drop ((encodeRecords e (rs.take i)).length + 12)).take
      r.value.length = r.value := by
  obtain ⟨hi, hget⟩ := List.getElem?_eq_some_iff.mp hr
  have hsplit : rs = rs.take i ++ r :: rs.drop (i + 1) := by
    rw [← hget, ← List.drop_eq_getElem_cons hi, List.take_append_drop]
  have hhdr : (storeLong e r.key ++ hostBytes e sizeofUInt r.value.length).length = 12 := by
    simp [storeLong_length, hostBytes_length, sizeofUInt]
  have hbuf : encodeRecords e rs = encodeRecords e (rs.take i) ++
      ((storeLong e r.key ++ hostBytes e sizeofUInt r.value.length) ++
        (r.value ++ encodeRecords e (rs.drop (i + 1)))) := by
    conv_lhs => rw [hsplit]
    rw [encodeRecords_append, encodeRecords, encodeRecord]
    simp
  rw [hbuf, ← List.drop_drop, List.drop_left, ← hhdr, List.drop_left, List.take_left]

/-! ## Facts about the loop on any buffer -/

theorem readBytes_of_le (buf : List Byte) (pointer n : Nat) (h : pointer + n ≤ buf.length) :
    readBytes buf pointer n = .ok ((buf.drop pointer).take n) := by
  rw [readBytes, if_pos h]

theorem readBytes_of_gt (buf : List Byte) (pointer n : Nat) (h : buf.length < pointer + n) :
    readBytes buf pointer n = .error .readPastEnd := by
  rw [readBytes, if_neg (by omega)]

/-- One iteration of the loop when more than 12 bytes remain at the cursor. -/
theorem deserializeLoop_step (e : Endian) (buf : List Byte) (fuel pointer : Nat)
    (list : List KVPAIR) (hc : pointer + 12 < buf.length) :
    deserializeLoop e buf (fuel + 1) pointer list =
      if (loadUInt e ((buf.drop (pointer + 8)).take 4) + 1) % uintModulus <
          loadUInt e ((buf.drop (pointer + 8)).take 4) + 1 then .error .writePastAlloc
      else if pointer + 12 + loadUInt e ((buf.drop (pointer + 8)).take 4) ≤ buf.length then
        deserializeLoop e buf fuel
          (pointer + 12 + loadUInt e ((buf.drop (pointer + 8)).take 4))
          (list ++ [{ key := loadLong e ((buf.drop pointer).take 8),
                      size := loadUInt e ((buf.drop (pointer + 8)).take 4),
                      val := (buf.drop (pointer + 12)).take
                        (loadUInt e ((buf.drop (pointer + 8)).take 4)) ++ [0] }])
      else .error .readPastEnd := by
  have hc' : pointer + sizeofLong + sizeofUInt < buf.length := by
    simp only [sizeofLong, sizeofUInt]; omega
  have hkey := readBytes_of_le buf pointer 8 (by omega)
  have hsize := readBytes_of_le buf (pointer + 8) 4 (by omega)
  rw [deserializeLoop, if_pos hc']
  simp only [sizeofLong, sizeofUInt, hkey, hsize, bind, Except.bind]
  by_cases halloc : (loadUInt e ((buf.drop (pointer + 8)).take 4) + 1) % uintModulus <
      loadUInt e ((buf.drop (pointer + 8)).take 4) + 1
  · simp only [if_pos halloc]
  · simp only [if_neg halloc]
    by_cases hval : pointer + 12 + loadUInt e ((buf.drop (pointer + 8)).take 4) ≤ buf.length
    · have hp : pointer + 8 + 4 = pointer + 12 := by omega
      rw [hp, readBytes_of_le buf _ _ hval, if_pos hval]
    · have hp : pointer + 8 + 4 = pointer + 12 := by omega
      rw [hp, readBytes_of_gt buf _ _ (by omega), if_neg hval]

/-- A list the loop returns is the list it started with followed by nodes
built by consecutive iterations from the cursor on, and at most 12 bytes remain
where the last of them left the cursor. -/
theorem deserializeLoop_ok (e : Endian) (buf : List Byte) (fuel pointer : Nat)
    (list result : List KVPAIR) (h : deserializeLoop e buf fuel pointer list = .ok result) :
    ∃ rest, result = list ++ rest ∧ parsedFrom e buf pointer rest ∧
      buf.length ≤ cursorAfter pointer rest + 12 := by
  induction fuel generalizing pointer list with
  | zero => simp [deserializeLoop] at h
  | succ fuel ih =>
    by_cases hc : pointer + 12 < buf.length
    · rw [deserializeLoop_step e buf fuel pointer list hc] at h
      by_cases halloc : (loadUInt e ((buf.drop (pointer + 8)).take 4) + 1) % uintModulus <
          loadUInt e ((buf.drop (pointer + 8)).take 4) + 1
      · rw [if_pos halloc] at h
        exact Except.noConfusion h
      · rw [if_neg halloc] at h
        by_cases hval : pointer + 12 + loadUInt e ((buf.drop (pointer + 8)).take 4) ≤
            buf.length
        · rw [if_pos hval] at h
          obtain ⟨rest, hres, hparsed, hend⟩ := ih _ _ h
          have hfit : loadUInt e ((buf.drop (pointer + 8)).take 4) + 1 < uintModulus := by
            by_contra hge
            have hlt := Nat.mod_lt (loadUInt e ((buf.drop (pointer + 8)).take 4) + 1)
              (show 0 < uintModulus by simp [uintModulus])
            omega
          exact ⟨{ key := loadLong e ((buf.drop pointer).take 8),
                   size := loadUInt e ((buf.drop (pointer + 8)).take 4),
                   val := (buf.drop (pointer + 12)).take
                     (loadUInt e ((buf.drop (pointer + 8)).take 4)) ++ [0] } :: rest,
            by rw [hres, List.append_assoc]; rfl,
            ⟨⟨hc, rfl, rfl, hfit, hval, rfl⟩, hparsed⟩, hend⟩
        · rw [if_neg hval] at h
          exact Except.noConfusion h
    · rw [deserializeLoop_exit e buf fuel pointer list (by omega)] at h
      refine ⟨[], ?_, trivial, ?_⟩
      · rw [List.append_nil]; exact (Except.ok.inj h).symm
      · simp only [cursorAfter]; omega

/-- The loop budget is not used up when 12 bytes for each unit of it reach
the end of the buffer from the cursor. -/
theorem deserializeLoop_fuel (e : Endian) (buf : List Byte) (fuel pointer : Nat)
    (list : List KVPAIR) (hf : 0 < fuel) (hlen : buf.length ≤ pointer + 12 * fuel) :
    deserializeLoop e buf fuel pointer list ≠ .error .outOfFuel := by
  induction fuel generalizing pointer list with
  | zero => omega
  | succ fuel ih =>
    by_cases hc : pointer + 12 < buf.length
    · rw [deserializeLoop_step e buf fuel pointer list hc]
      by_cases halloc : (loadUInt e ((buf.drop (pointer + 8)).take 4) + 1) % uintModulus <
          loadUInt e ((buf.drop (pointer + 8)).take 4) + 1
      · rw [if_pos halloc]
        exact fun h => Fault.noConfusion (Except.error.inj h)
      · rw [if_neg halloc]
        by_cases hval : pointer + 12 + loadUInt e ((buf.drop (pointer + 8)).take 4) ≤
            buf.length
        · rw [if_pos hval]
          exact ih _ _ (by omega) (by omega)
        · rw [if_neg hval]
          exact fun h => Fault.noConfusion (Except.error.inj h)
    · rw [deserializeLoop_exit e buf fuel pointer list (by omega)]
      exact fun h => Except.noConfusion h

/-- Every iteration starts with more than 12 bytes left and moves the cursor
by at least 12: `n` nodes need more than `12 * n` bytes. -/
theorem parsedFrom_bound (e : Endian) (buf : List Byte) (off : Nat) (list : List KVPAIR)
    (h : parsedFrom e buf off list) (hne : list ≠ []) :
    off + 12 * list.length < buf.length := by
  induction list generalizing off with
  | nil => exact absurd rfl hne
  | cons n rest ih =>
    obtain ⟨⟨hc, _, _, _, hval, _⟩, hrest⟩ := h
    by_cases hr : rest = []
    · subst hr
      simp only [List.length_singleton]; omega
    · have := ih (off + 12 + n.size) hrest hr
      simp only [List.length_cons]; omega

/-- The node at position `i` was built with the cursor where the `i` nodes
before it left it. -/
theorem parsedFrom_getElem (e : Endian) (buf : List Byte) (off : Nat) (list : List KVPAIR)
    (h : parsedFrom e buf off list) (i : Nat) (entry : KVPAIR)
    (hi : list[i]? = some entry) :
    entryAt e buf (cursorAfter off (list.take i)) entry ∧
      cursorAfter off (list.take (i + 1)) =
        cursorAfter off (list.take i) + 12 + entry.size := by
  induction list generalizing off i with
  | nil => simp at hi
  | cons n rest ih =>
    obtain ⟨hn, hrest⟩ := h
    cases i with
    | zero =>
      have hne : n = entry := by simpa using hi
      subst hne
      exact ⟨by simpa [cursorAfter] using hn, by simp [cursorAfter]⟩
    | succ i =>
      have hi' : rest[i]? = some entry := by simpa using hi
      have := ih (off + 12 + n.size) hrest i hi'
      simpa [cursorAfter] using this

/-- A larger loop budget does not change the result once the budget reaches the
end of the buffer. -/
theorem deserializeLoop_more_fuel (e : Endian) (buf : List Byte) (fuel extra pointer : Nat)
    (list : List KVPAIR) (hf : 0 < fuel) (hlen : buf.length ≤ pointer + 12 * fuel) :
    deserializeLoop e buf (fuel + extra) pointer list =
      deserializeLoop e buf fuel pointer list := by
  induction fuel generalizing pointer list with
  | zero => omega
  | succ fuel ih =>
    have hadd : fuel + 1 + extra = (fuel + extra) + 1 := by omega
    rw [hadd]
    by_cases hc : pointer + 12 < buf.length
    · rw [deserializeLoop_step e buf _ pointer list hc,
        deserializeLoop_step e buf _ pointer list hc]
      by_cases halloc : (loadUInt e ((buf.drop (pointer + 8)).take 4) + 1) % uintModulus <
          loadUInt e ((buf.drop (pointer + 8)).take 4) + 1
      · rw [if_pos halloc, if_pos halloc]
      · rw [if_neg halloc, if_neg halloc]
        by_cases hval : pointer + 12 + loadUInt e ((buf.drop (pointer + 8)).take 4) ≤
            buf.length
        · rw [if_pos hval, if_pos hval]
          exact ih _ _ (by omega) (by omega)
        · rw [if_neg hval, if_neg hval]
    · rw [deserializeLoop_exit e buf _ pointer list (by omega),
        deserializeLoop_exit e buf _ pointer list (by omega)]

/-- The loop on well-formed records that are followed by further bytes: it
builds the node of every record and goes on behind them. -/
theorem deserializeLoop_records_more (e : Endian) (rs : List Record)
    (hwf : ∀ r ∈ rs, r.WellFormed ∧ r.value.length + 1 < uintModulus)
    (more : List Byte) (hmore : more ≠ []) (pre : List Byte) (fuel : Nat)
    (list : List KVPAIR) :
    deserializeLoop e (pre ++ (encodeRecords e rs ++ more)) (fuel + rs.length) pre.length
        list =
      deserializeLoop e (pre ++ (encodeRecords e rs ++ more)) fuel
        (pre ++ encodeRecords e rs).length (list ++ rs.map Record.toEntry) := by
  induction rs generalizing pre list with
  | nil => simp [encodeRecords]
  | cons r rs ih =>
    obtain ⟨hr, hsz⟩ := hwf r (by simp)
    have hpos : 0 < more.length := List.length_pos.mpr hmore
    have hrest : 0 < r.value.length + (encodeRecords e rs ++ more).length := by
      rw [List.length_append]; omega
    have hbuf : pre ++ (encodeRecords e (r :: rs) ++ more) =
        pre ++ (encodeRecord e r ++ (encodeRecords e rs ++ more)) := by
      rw [encodeRecords, List.append_assoc]
    have hstep := deserializeLoop_record e pre (encodeRecords e rs ++ more) r hr hsz hrest
      (fuel + rs.length) list
    have hih := ih (fun x hx => hwf x (by simp [hx])) (pre ++ encodeRecord e r)
      (list ++ [r.toEntry])
    rw [List.append_assoc] at hih
    have hfuel : fuel + (r :: rs).length = (fuel + rs.length) + 1 := by
      simp only [List.length_cons]; omega
    rw [hbuf, hfuel, hstep, hih]
    simp [encodeRecords]

/-- One iteration on a header that declares more value bytes than the buffer
still holds behind it: the copy of the value leaves the buffer. -/
theorem deserializeLoop_truncated (e : Endian) (pre : List Byte) (k : Int) (s : Nat)
    (tail : List Byte) (hs : s + 1 < uintModulus) (h0 : tail ≠ [])
    (hshort : tail.length < s) (fuel : Nat) (list : List KVPAIR) :
    deserializeLoop e (pre ++ (storeLong e k ++ (hostBytes e sizeofUInt s ++ tail)))
      (fuel + 1) pre.length list = .error .readPastEnd := by
  have hpos : 0 < tail.length := List.length_pos.mpr h0
  have hlen : (pre ++ (storeLong e k ++ (hostBytes e sizeofUInt s ++ tail))).length =
      pre.length + 12 + tail.length := by
    simp only [List.length_append, storeLong_length, hostBytes_length, sizeofUInt]; omega
  have hsize : ((pre ++ (storeLong e k ++ (hostBytes e sizeofUInt s ++ tail))).drop
      (pre.length + 8)).take 4 = hostBytes e sizeofUInt s := by
    have h1 : pre ++ (storeLong e k ++ (hostBytes e sizeofUInt s ++ tail)) =
        (pre ++ storeLong e k) ++ (hostBytes e sizeofUInt s ++ tail) := by
      rw [List.append_assoc]
    have h2 : pre.length + 8 = (pre ++ storeLong e k).length := by
      rw [List.length_append, storeLong_length]
    have h3 : 4 = (hostBytes e sizeofUInt s).length := by
      rw [hostBytes_length]; rfl
    rw [h1, h2, List.drop_left]
    conv_lhs => rw [h3]
    rw [List.take_left]
  have hload : loadUInt e (hostBytes e sizeofUInt s) = s :=
    loadUInt_hostBytes e s (by omega)
  rw [deserializeLoop_step e _ fuel pre.length list (by rw [hlen]; omega), hsize, hload,
    if_neg (by rw [Nat.mod_eq_of_lt hs]; omega), if_neg (by rw [hlen]; omega)]

/-- On well-formed records with sizes below `UINT_MAX` whose last record has
value bytes, `deserialize` returns the nodes of all of them. -/
theorem deserialize_records_last_value (e : Endian) (rs : List Record) (last : Record)
    (hwf : ∀ r ∈ rs ++ [last], r.WellFormed ∧ r.value.length + 1 < uintModulus)
    (hlast : last.value ≠ []) :
    deserialize e (encodeRecords e (rs ++ [last])) =
      .ok ((rs ++ [last]).map Record.toEntry) := by
  rw [deserialize_records e _ hwf, parsedRecords_append_of_value rs last hlast]

/-- On well-formed records with sizes below `UINT_MAX` whose last record has no
value bytes, `deserialize` returns the nodes of all but the last. -/
theorem deserialize_records_last_empty (e : Endian) (rs : List Record) (last : Record)
    (hwf : ∀ r ∈ rs ++ [last], r.WellFormed ∧ r.value.length + 1 < uintModulus)
    (hlast : last.value = []) :
    deserialize e (encodeRecords e (rs ++ [last])) = .ok (rs.map Record.toEntry) := by
  rw [deserialize_records e _ hwf, parsedRecords_append_of_empty rs last hlast]

theorem uintMaxRecord_length (key : Int) :
    (uintMaxRecord key).value.length + 1 = uintModulus := by
  have hpos : 0 < uintModulus := by simp [uintModulus]
  rw [uintMaxRecord, List.length_replicate]
  omega

theorem uintMaxRecord_wellFormed (key : Int) (hlo : -(2 ^ 63 : Int) ≤ key)
    (hhi : key < 2 ^ 63) : (uintMaxRecord key).WellFormed := by
  have hlen := uintMaxRecord_length key
  exact ⟨hlo, hhi, by omega⟩

/-- One iteration with more than 12 bytes left at the cursor, in terms of the
node it fills: it faults when the size plus one wraps or the value leaves the
buffer, and otherwise appends the node and goes on behind the value. -/
theorem deserializeLoop_step_node (e : Endian) (buf : List Byte) (fuel pointer : Nat)
    (list : List KVPAIR) (hc : pointer + 12 < buf.length) :
    deserializeLoop e buf (fuel + 1) pointer list =
      if (sizeAt e buf pointer + 1) % uintModulus < sizeAt e buf pointer + 1 then
        .error .writePastAlloc
      else if pointer + 12 + sizeAt e buf pointer ≤ buf.length then
        deserializeLoop e buf fuel (pointer + 12 + sizeAt e buf pointer)
          (list ++ [nodeAt e buf pointer])
      else .error .readPastEnd :=
  deserializeLoop_step e buf fuel pointer list hc

/-- A record at the cursor that lies inside the buffer is parsed: the loop goes
on behind it with its node appended. -/
theorem deserializeLoop_parse (e : Endian) (buf : List Byte) (fuel pointer : Nat)
    (list : List KVPAIR) (hc : pointer + 12 < buf.length)
    (hfit : sizeAt e buf pointer + 1 < uintModulus)
    (hval : pointer + 12 + sizeAt e buf pointer ≤ buf.length) :
    deserializeLoop e buf (fuel + 1) pointer list =
      deserializeLoop e buf fuel (pointer + 12 + sizeAt e buf pointer)
        (list ++ [nodeAt e buf pointer]) := by
  rw [deserializeLoop_step_node e buf fuel pointer list hc,
    if_neg (by rw [Nat.mod_eq_of_lt hfit]; omega), if_pos hval]

/-- A record at the cursor that lies inside the buffer and has at most 12 bytes
behind it is parsed, and the loop returns with its node as the last one. -/
theorem deserializeLoop_parse_last (e : Endian) (buf : List Byte) (fuel pointer : Nat)
    (list : List KVPAIR) (hc : pointer + 12 < buf.length)
    (hfit : sizeAt e buf pointer + 1 < uintModulus)
    (hval : pointer + 12 + sizeAt e buf pointer ≤ buf.length)
    (hend : buf.length ≤ pointer + 12 + sizeAt e buf pointer + 12) :
    deserializeLoop e buf (fuel + 2) pointer list = .ok (list ++ [nodeAt e buf pointer]) := by
  rw [deserializeLoop_parse e buf (fuel + 1) pointer list hc hfit hval,
    deserializeLoop_exit e buf fuel _ _ hend]

/-- The two ways `delete` and `lookup` can go on a list. -/
theorem delete_cases (list : List KVPAIR) (key : Int) :
    ((∀ x ∈ list, x.key ≠ key) ∧ delete list key = (0, list) ∧ lookup list key = none) ∨
    (∃ pre found post, list = pre ++ found :: post ∧ found.key = key ∧
      (∀ x ∈ pre, x.key ≠ key) ∧ delete list key = (1, pre ++ post) ∧
      lookup list key = some found) := by
  rcases no_match_or_match key list with h | h
  · exact Or.inl ⟨h, delete_of_no_match key list h, lookup_of_no_match key list h⟩
  · obtain ⟨pre, found, post, hl, hk, hpre⟩ := exists_first_match key list h
    refine Or.inr ⟨pre, found, post, hl, hk, hpre, ?_, ?_⟩
    · rw [hl]; exact delete_of_split key pre found post hpre hk
    · rw [hl]; exact lookup_of_split key pre found post hpre hk

/-- The loop of `delete` started with nodes already passed: they stay in front
of what `delete` leaves of the rest. -/
theorem deleteLoop_eq (key : Int) (list before : List KVPAIR) :
    deleteLoop key before list = ((delete list key).1, before ++ (delete list key).2) := by
  rcases no_match_or_match key list with h | h
  · rw [deleteLoop_of_no_match key list before h, delete_of_no_match key list h]
  · obtain ⟨pre, found, post, hl, hk, hpre⟩ := exists_first_match key list h
    subst hl
    rw [deleteLoop_of_split key pre found post before hpre hk,
      delete_of_split key pre found post hpre hk]

theorem delete_nil (key : Int) : delete [] key = (0, []) := rfl

theorem delete_cons_of_eq (a : KVPAIR) (list : List KVPAIR) (key : Int)
    (h : a.key = key) : delete (a :: list) key = (1, list) := by
  simp [delete, deleteLoop, h]

theorem delete_cons_of_ne (a : KVPAIR) (list : List KVPAIR) (key : Int)
    (h : a.key ≠ key) :
    delete (a :: list) key = ((delete list key).1, a :: (delete list key).2) := by
  have hstep : delete (a :: list) key = deleteLoop key ([] ++ [a]) list := by
    simp only [delete, deleteLoop, if_neg h]
  rw [hstep, deleteLoop_eq]
  rfl

/-! ## Theorems: lookup -/

/-- C3: `lookup` returns `none` exactly when no entry of the list has the key,
and it returns `found` exactly when `found` is the entry at the smallest
position whose key is the key asked for. -/
theorem lookup_first_match (list : List KVPAIR) (key : Int) :
    (lookup list key = none ↔ ∀ x ∈ list, x.key ≠ key) ∧
    (∀ found, lookup list key = some found ↔
      ∃ i : Nat, list[i]? = some found ∧ found.key = key ∧
        ∀ j : Nat, j < i → ∀ x : KVPAIR, list[j]? = some x → x.key ≠ key) := by
  induction list with
  | nil => simp [lookup]
  | cons a rest ih =>
    obtain ⟨ihn, ihs⟩ := ih
    by_cases ha : a.key = key
    · constructor
      · simp [lookup, ha]
      · intro found
        simp only [lookup, if_pos ha, Option.some.injEq]
        constructor
        · rintro rfl
          exact ⟨0, by simp, ha, by intro j hj; omega⟩
        · rintro ⟨i, hi, _, hmin⟩
          cases i with
          | zero => simpa using hi
          | succ i => exact absurd ha (hmin 0 (by omega) a (by simp))
    · constructor
      · simp only [lookup, if_neg ha, ihn]
        constructor
        · intro h x hx
          rcases List.mem_cons.mp hx with rfl | hx
          · exact ha
          · exact h x hx
        · intro h x hx
          exact h x (by simp [hx])
      · intro found
        simp only [lookup, if_neg ha, ihs found]
        constructor
        · rintro ⟨i, hi, hk, hmin⟩
          refine ⟨i + 1, by simpa using hi, hk, ?_⟩
          intro j hj x hx
          cases j with
          | zero =>
            have hxa : a = x := by simpa using hx
            exact hxa ▸ ha
          | succ j => exact hmin j (by omega) x (by simpa using hx)
        · rintro ⟨i, hi, hk, hmin⟩
          cases i with
          | zero =>
            have hfa : a = found := by simpa using hi
            exact absurd hk (hfa ▸ ha)
          | succ i =>
            refine ⟨i, by simpa using hi, hk, ?_⟩
            intro j hj x hx
            exact hmin (j + 1) (by omega) x (by simpa using hx)

/-! ## Theorems: delete -/

/-- C4: when the key occurs in the list, `delete` leaves exactly the list
without the entry at the first position whose key is the key: the entries
before it (`pre`) and after it (`post`) stay, unchanged and in order. The head
is removed when `pre` is empty, the tail when `post` is empty. -/
theorem delete_removes_first_match (list : List KVPAIR) (key : Int)
    (h : ∃ x ∈ list, x.key = key) :
    ∃ pre removed post, list = pre ++ removed :: post ∧ removed.key = key ∧
      (∀ x ∈ pre, x.key ≠ key) ∧ (delete list key).2 = pre ++ post := by
  rcases delete_cases list key with ⟨hno, _, _⟩ | ⟨pre, found, post, hl, hk, hpre, hdel, _⟩
  · obtain ⟨x, hx, hxk⟩ := h
    exact absurd hxk (hno x hx)
  · exact ⟨pre, found, post, hl, hk, hpre, by rw [hdel]⟩

/-- Witness for C4: deleting key 2 from a four-entry list with two entries of
key 2. -/
theorem delete_removes_first_match_witness :
    ∃ pre removed post,
      ([⟨1, 0, [0]⟩, ⟨2, 1, [5, 0]⟩, ⟨3, 0, [0]⟩, ⟨2, 0, [0]⟩] : List KVPAIR) =
        pre ++ removed :: post ∧ removed.key = 2 ∧ (∀ x ∈ pre, x.key ≠ 2) ∧
      (delete [⟨1, 0, [0]⟩, ⟨2, 1, [5, 0]⟩, ⟨3, 0, [0]⟩, ⟨2, 0, [0]⟩] 2).2 = pre ++ post :=
  delete_removes_first_match [⟨1, 0, [0]⟩, ⟨2, 1, [5, 0]⟩, ⟨3, 0, [0]⟩, ⟨2, 0, [0]⟩] 2
    ⟨⟨2, 1, [5, 0]⟩, by decide, by decide⟩

/-- C5: `delete` returns 1 exactly when some entry of the list has the key and
0 exactly when none has; it returns 1 exactly when `lookup` on the same list
and key finds an entry. -/
theorem delete_result_iff (list : List KVPAIR) (key : Int) :
    ((delete list key).1 = 1 ↔ ∃ x ∈ list, x.key = key) ∧
    ((delete list key).1 = 0 ↔ ∀ x ∈ list, x.key ≠ key) ∧
    ((delete list key).1 = 1 ↔ ∃ found, lookup list key = some found) := by
  rcases delete_cases list key with ⟨hno, hdel, hlook⟩ | ⟨pre, found, post, hl, hk, _, hdel, hlook⟩
  · rw [hdel, hlook]
    refine ⟨?_, ?_, ?_⟩
    · constructor
      · intro h; exact absurd h (by simp)
      · rintro ⟨x, hx, hxk⟩; exact absurd hxk (hno x hx)
    · constructor
      · intro _; exact hno
      · intro _; rfl
    · constructor
      · intro h; exact absurd h (by simp)
      · rintro ⟨f, hf⟩; exact absurd hf (by simp)
  · have hmem : found ∈ list := by rw [hl]; simp
    rw [hdel, hlook]
    refine ⟨?_, ?_, ?_⟩
    · constructor
      · intro _; exact ⟨found, hmem, hk⟩
      · intro _; rfl
    · constructor
      · intro h; exact absurd h (by simp)
      · intro h; exact absurd hk (h found hmem)
    · constructor
      · intro _; exact ⟨found, rfl⟩
      · intro _; rfl

/-- C6: when `delete` returns 1 the list afterwards is one entry shorter than
before; when it returns 0 the list afterwards is the list before. -/
theorem delete_length (list : List KVPAIR) (key : Int) :
    ((delete list key).1 = 1 →
      1 ≤ list.length ∧ (delete list key).2.length = list.length - 1) ∧
    ((delete list key).1 = 0 → (delete list key).2 = list) := by
  rcases delete_cases list key with ⟨_, hdel, _⟩ | ⟨pre, found, post, hl, _, _, hdel, _⟩
  · rw [hdel]
    exact ⟨fun h => absurd h (by simp), fun _ => rfl⟩
  · rw [hdel]
    refine ⟨fun _ => ?_, fun h => absurd h (by simp)⟩
    rw [hl]
    simp only [List.length_append, List.length_cons]
    omega

/-- Witness for C6: a successful and a failing `delete` on a three-entry list. -/
theorem delete_length_witness :
    (1 ≤ ([⟨1, 0, [0]⟩, ⟨2, 1, [5, 0]⟩, ⟨3, 0, [0]⟩] : List KVPAIR).length ∧
      (delete [⟨1, 0, [0]⟩, ⟨2, 1, [5, 0]⟩, ⟨3, 0, [0]⟩] 2).2.length =
        ([⟨1, 0, [0]⟩, ⟨2, 1, [5, 0]⟩, ⟨3, 0, [0]⟩] : List KVPAIR).length - 1) ∧
    (delete [⟨1, 0, [0]⟩, ⟨2, 1, [5, 0]⟩, ⟨3, 0, [0]⟩] 9).2 =
      [⟨1, 0, [0]⟩, ⟨2, 1, [5, 0]⟩, ⟨3, 0, [0]⟩] :=
  ⟨(delete_length [⟨1, 0, [0]⟩, ⟨2, 1, [5, 0]⟩, ⟨3, 0, [0]⟩] 2).1 (by decide),
   (delete_length [⟨1, 0, [0]⟩, ⟨2, 1, [5, 0]⟩, ⟨3, 0, [0]⟩] 9).2 (by decide)⟩

/-- C7: after a successful `delete` of `key`, `lookup` of `key` on the list
that is left finds nothing when the key occurred once, and finds the entry that
was the second occurrence of the key when it occurred more than once. -/
theorem lookup_after_delete (list : List KVPAIR) (key : Int)
    (h : (delete list key).1 = 1) :
    (list.countP (fun x => x.key = key) = 1 →
      lookup (delete list key).2 key = none) ∧
    (1 < list.countP (fun x => x.key = key) →
      ∃ pre first mid second post,
        list = pre ++ first :: (mid ++ second :: post) ∧
        (∀ x ∈ pre, x.key ≠ key) ∧ first.key = key ∧
        (∀ x ∈ mid, x.key ≠ key) ∧ second.key = key ∧
        (delete list key).2 = pre ++ (mid ++ second :: post) ∧
        lookup (delete list key).2 key = some second) := by
  rcases delete_cases list key with ⟨_, hdel, _⟩ | ⟨pre, first, post, hl, hk, hpre, hdel, _⟩
  · rw [hdel] at h
    exact absurd h (by simp)
  · have hpre0 : pre.countP (fun x => x.key = key) = 0 := by
      rw [List.countP_eq_zero]
      intro x hx
      simpa using hpre x hx
    have hcount : list.countP (fun x => x.key = key) =
        1 + post.countP (fun x => x.key = key) := by
      rw [hl, List.countP_append, hpre0, List.countP_cons]
      simp [hk]
      omega
    rw [hdel, hcount]
    constructor
    · intro hone
      have hpost0 : post.countP (fun x => x.key = key) = 0 := by omega
      rw [List.countP_eq_zero] at hpost0
      apply lookup_of_no_match
      intro x hx
      rcases List.mem_append.mp hx with hx | hx
      · exact hpre x hx
      · simpa using hpost0 x hx
    · intro hmany
      have hpos : 0 < post.countP (fun x => x.key = key) := by omega
      rw [List.countP_pos_iff] at hpos
      have hex : ∃ x ∈ post, x.key = key := by
        obtain ⟨x, hx, hxk⟩ := hpos
        exact ⟨x, hx, by simpa using hxk⟩
      obtain ⟨mid, second, post', hp, hk2, hmid⟩ := exists_first_match key post hex
      refine ⟨pre, first, mid, second, post', by rw [hl, hp], hpre, hk, hmid, hk2,
        by rw [hp], ?_⟩
      have hboth : ∀ x ∈ pre ++ mid, x.key ≠ key := by
        intro x hx
        rcases List.mem_append.mp hx with hx | hx
        · exact hpre x hx
        · exact hmid x hx
      have := lookup_of_split key (pre ++ mid) second post' hboth hk2
      rw [hp]
      simpa using this

/-- Witness for C7: key 2 occurs twice in the first list, and after deleting
it the second occurrence is found; it occurs once in the second list, and
after deleting it nothing is found. -/
theorem lookup_after_delete_witness :
    ((delete [⟨1, 0, [0]⟩, ⟨2, 1, [5, 0]⟩, ⟨3, 0, [0]⟩, ⟨2, 0, [0]⟩] 2).1 = 1 ∧
      1 < ([⟨1, 0, [0]⟩, ⟨2, 1, [5, 0]⟩, ⟨3, 0, [0]⟩, ⟨2, 0, [0]⟩] : List KVPAIR).countP
        (fun x => x.key = 2) ∧
      ∃ pre first mid second post,
        ([⟨1, 0, [0]⟩, ⟨2, 1, [5, 0]⟩, ⟨3, 0, [0]⟩, ⟨2, 0, [0]⟩] : List KVPAIR) =
          pre ++ first :: (mid ++ second :: post) ∧
        (∀ x ∈ pre, x.key ≠ 2) ∧ first.key = 2 ∧
        (∀ x ∈ mid, x.key ≠ 2) ∧ second.key = 2 ∧
        (delete [⟨1, 0, [0]⟩, ⟨2, 1, [5, 0]⟩, ⟨3, 0, [0]⟩, ⟨2, 0, [0]⟩] 2).2 =
          pre ++ (mid ++ second :: post) ∧
        lookup (delete [⟨1, 0, [0]⟩, ⟨2, 1, [5, 0]⟩, ⟨3, 0, [0]⟩, ⟨2, 0, [0]⟩] 2).2 2 =
          some second) ∧
    ((delete [⟨1, 0, [0]⟩, ⟨2, 1, [5, 0]⟩, ⟨3, 0, [0]⟩] 2).1 = 1 ∧
      ([⟨1, 0, [0]⟩, ⟨2, 1, [5, 0]⟩, ⟨3, 0, [0]⟩] : List KVPAIR).countP
        (fun x => x.key = 2) = 1 ∧
      lookup (delete [⟨1, 0, [0]⟩, ⟨2, 1, [5, 0]⟩, ⟨3, 0, [0]⟩] 2).2 2 = none) :=
  ⟨⟨by decide, by decide,
    (lookup_after_delete [⟨1, 0, [0]⟩, ⟨2, 1, [5, 0]⟩, ⟨3, 0, [0]⟩, ⟨2, 0, [0]⟩] 2
      (by decide)).2 (by decide)⟩,
   ⟨by decide, by decide,
    (lookup_after_delete [⟨1, 0, [0]⟩, ⟨2, 1, [5, 0]⟩, ⟨3, 0, [0]⟩] 2
      (by decide)).1 (by decide)⟩⟩

/-- C9: deleting the key of the only entry of a one-entry list returns 1 and
leaves the empty list; on the empty list `delete` returns 0 and leaves it
empty, and `lookup` finds nothing. -/
theorem delete_sole_entry_and_empty (entry : KVPAIR) (key : Int) :
    delete [entry] entry.key = (1, []) ∧
    delete [] key = (0, []) ∧
    lookup [] key = none := by
  refine ⟨?_, rfl, rfl⟩
  simp [delete, deleteLoop]

/-! ## Theorems: deserialize -/

/-- C8: every entry of the list `deserialize` returns on a concatenation of
well-formed records holds, before the terminating zero byte of its block, as
many value bytes as its `size` field says, and these are the `size` bytes that
follow the header of its record in the buffer. -/
theorem deserialize_entry_value (e : Endian) (rs : List Record)
    (hwf : ∀ r ∈ rs, r.WellFormed) (list : List KVPAIR)
    (hret : deserialize e (encodeRecords e rs) = .ok list)
    (i : Nat) (entry : KVPAIR) (hi : list[i]? = some entry) :
    ∃ r, rs[i]? = some r ∧ entry.key = r.key ∧ entry.size = r.value.length ∧
      entry.val = r.value ++ [0] ∧
      (entry.val.take entry.size).length = entry.size ∧
      entry.val.take entry.size =
        ((encodeRecords e rs).drop ((encodeRecords e (rs.take i)).length + 12)).take
          entry.size := by
  have hlist : list = (parsedRecords rs).map Record.toEntry := by
    rcases deserialize_wellFormed e rs hwf with hok | herr
    · rw [hok] at hret
      exact (Except.ok.inj hret).symm
    · rw [herr] at hret
      exact Except.noConfusion hret
  rw [hlist, List.getElem?_map, Option.map_eq_some'] at hi
  obtain ⟨r, hr, rfl⟩ := hi
  obtain ⟨t, ht⟩ := parsedRecords_initial rs
  obtain ⟨hlt, _⟩ := List.getElem?_eq_some_iff.mp hr
  have hrs : rs[i]? = some r := by
    rw [← ht, List.getElem?_append_left hlt]
    exact hr
  refine ⟨r, hrs, rfl, rfl, rfl, ?_, ?_⟩
  · simp [Record.toEntry]
  · simp only [Record.toEntry, List.take_left]
    exact (value_in_buffer e rs i r hrs).symm

/-- Witness for C8: two records on a little-endian host, the entry at
position 1. -/
theorem deserialize_entry_value_witness :
    (∀ r ∈ ([⟨1, [97, 98, 99]⟩, ⟨-2, [7]⟩] : List Record), r.WellFormed) ∧
    deserialize .little (encodeRecords .little [⟨1, [97, 98, 99]⟩, ⟨-2, [7]⟩]) =
      .ok [⟨1, 3, [97, 98, 99, 0]⟩, ⟨-2, 1, [7, 0]⟩] ∧
    ∃ r, ([⟨1, [97, 98, 99]⟩, ⟨-2, [7]⟩] : List Record)[1]? = some r ∧
      (⟨-2, 1, [7, 0]⟩ : KVPAIR).key = r.key ∧
      (⟨-2, 1, [7, 0]⟩ : KVPAIR).size = r.value.length ∧
      (⟨-2, 1, [7, 0]⟩ : KVPAIR).val = r.value ++ [0] ∧
      ((⟨-2, 1, [7, 0]⟩ : KVPAIR).val.take (⟨-2, 1, [7, 0]⟩ : KVPAIR).size).length =
        (⟨-2, 1, [7, 0]⟩ : KVPAIR).size ∧
      (⟨-2, 1, [7, 0]⟩ : KVPAIR).val.take (⟨-2, 1, [7, 0]⟩ : KVPAIR).size =
        ((encodeRecords .little [⟨1, [97, 98, 99]⟩, ⟨-2, [7]⟩]).drop
          ((encodeRecords .little
            (([⟨1, [97, 98, 99]⟩, ⟨-2, [7]⟩] : List Record).take 1)).length + 12)).take
          (⟨-2, 1, [7, 0]⟩ : KVPAIR).size :=
  ⟨by decide, by decide,
   deserialize_entry_value .little [⟨1, [97, 98, 99]⟩, ⟨-2, [7]⟩] (by decide)
     [⟨1, 3, [97, 98, 99, 0]⟩, ⟨-2, 1, [7, 0]⟩] (by decide) 1 ⟨-2, 1, [7, 0]⟩ (by decide)⟩

/-- C1: the buffer made of the one well-formed record with key 7 and no value
bytes is 12 bytes long, and on it `deserialize` returns the empty list, not a
list of one entry: exactly 12 bytes remain at the cursor and the loop test asks
for strictly more. -/
theorem deserialize_single_empty_record (e : Endian) :
    Record.WellFormed ⟨7, []⟩ ∧
    (encodeRecords e [⟨7, []⟩]).length = 12 ∧
    deserialize e (encodeRecords e [⟨7, []⟩]) = .ok [] := by
  cases e <;> decide

/-- C2: on the 27-byte buffer of the records (key 1, "abc") and (key 2, no
value bytes) `deserialize` returns the one-entry list with key 1, and `lookup`
of key 2 on that list finds nothing: the second record is not parsed. The
first conjunct shows the buffer of a little-endian host. -/
theorem deserialize_two_record_scenario :
    encodeRecords .little [⟨1, [97, 98, 99]⟩, ⟨2, []⟩] =
      [1, 0, 0, 0, 0, 0, 0, 0, 3, 0, 0, 0, 97, 98, 99,
       2, 0, 0, 0, 0, 0, 0, 0, 0, 0, 0, 0] ∧
    ∀ e : Endian,
      (encodeRecords e [⟨1, [97, 98, 99]⟩, ⟨2, []⟩]).length = 27 ∧
      deserialize e (encodeRecords e [⟨1, [97, 98, 99]⟩, ⟨2, []⟩]) =
        .ok [⟨1, 3, [97, 98, 99, 0]⟩] ∧
      lookup [⟨1, 3, [97, 98, 99, 0]⟩] 2 = none := by
  refine ⟨by decide, ?_⟩
  intro e
  cases e <;> decide

/-- C10: on the 12-byte buffer that holds one complete header (key 5, size 0)
`deserialize` returns the empty list although the buffer is not shorter than a
header. -/
theorem deserialize_header_only_buffer :
    ∀ e : Endian,
      deserialize e (storeLong e 5 ++ hostBytes e sizeofUInt 0) = .ok [] ∧
      ¬ (storeLong e 5 ++ hostBytes e sizeofUInt 0).length < 12 := by
  intro e
  cases e <;> decide

/-! ## Theorems: delete and other keys -/

/-- C18: for distinct keys `k` and `j`, `lookup` of `j` on the list left by
`delete` of `k` returns what `lookup` of `j` returned on the list before: the
same entry, or nothing in both cases. -/
theorem lookup_after_delete_other (list : List KVPAIR) (k j : Int) (h : k ≠ j) :
    lookup (delete list k).2 j = lookup list j := by
  induction list with
  | nil => rfl
  | cons a rest ih =>
    by_cases hk : a.key = k
    · have hj : a.key ≠ j := fun hj => h (hk.symm.trans hj)
      rw [delete_cons_of_eq a rest k hk]
      simp only [lookup, if_neg hj]
    · rw [delete_cons_of_ne a rest k hk]
      by_cases hj : a.key = j
      · simp only [lookup, if_pos hj]
      · simp only [lookup, if_neg hj]
        exact ih

/-- Witness for C18: deleting key 2 leaves the result of looking up key 3, and
of looking up the absent key 9, as it was. -/
theorem lookup_after_delete_other_witness :
    (2 : Int) ≠ 3 ∧
    lookup (delete [⟨1, 0, [0]⟩, ⟨2, 1, [5, 0]⟩, ⟨3, 0, [0]⟩, ⟨3, 1, [4, 0]⟩] 2).2 3 =
      lookup [⟨1, 0, [0]⟩, ⟨2, 1, [5, 0]⟩, ⟨3, 0, [0]⟩, ⟨3, 1, [4, 0]⟩] 3 ∧
    lookup [⟨1, 0, [0]⟩, ⟨2, 1, [5, 0]⟩, ⟨3, 0, [0]⟩, ⟨3, 1, [4, 0]⟩] 3 =
      some ⟨3, 0, [0]⟩ ∧
    lookup (delete [⟨1, 0, [0]⟩, ⟨2, 1, [5, 0]⟩, ⟨3, 0, [0]⟩, ⟨3, 1, [4, 0]⟩] 2).2 9 = none :=
  ⟨by decide,
   lookup_after_delete_other [⟨1, 0, [0]⟩, ⟨2, 1, [5, 0]⟩, ⟨3, 0, [0]⟩, ⟨3, 1, [4, 0]⟩] 2 3
     (by decide),
   by decide,
   (lookup_after_delete_other [⟨1, 0, [0]⟩, ⟨2, 1, [5, 0]⟩, ⟨3, 0, [0]⟩, ⟨3, 1, [4, 0]⟩] 2 9
     (by decide)).trans (by decide)⟩

/-- C19: for distinct keys `k` and `j`, deleting `k` and then `j` leaves the
same list as deleting `j` and then `k`, and the value returned for `k` and the
value returned for `j` are the same in both orders. -/
theorem delete_delete_comm (list : List KVPAIR) (k j : Int) (h : k ≠ j) :
    (delete (delete list k).2 j).2 = (delete (delete list j).2 k).2 ∧
    (delete list k).1 = (delete (delete list j).2 k).1 ∧
    (delete (delete list k).2 j).1 = (delete list j).1 := by
  induction list with
  | nil => simp [delete_nil]
  | cons a rest ih =>
    obtain ⟨ihl, ihk, ihj⟩ := ih
    by_cases hk : a.key = k
    · have hj : a.key ≠ j := fun hj => h (hk.symm.trans hj)
      rw [delete_cons_of_eq a rest k hk, delete_cons_of_ne a rest j hj]
      simp only [delete_cons_of_eq a _ k hk]
      exact ⟨trivial, trivial, trivial⟩
    · by_cases hj : a.key = j
      · rw [delete_cons_of_ne a rest k hk, delete_cons_of_eq a rest j hj]
        simp only [delete_cons_of_eq a _ j hj]
        exact ⟨trivial, trivial, trivial⟩
      · rw [delete_cons_of_ne a rest k hk, delete_cons_of_ne a rest j hj]
        simp only [delete_cons_of_ne a _ k hk, delete_cons_of_ne a _ j hj]
        exact ⟨by rw [ihl], ihk, ihj⟩

/-- Witness for C19: keys 2 and 3 on a list where 3 occurs twice and 2 once. -/
theorem delete_delete_comm_witness :
    (2 : Int) ≠ 3 ∧
    ((delete (delete [⟨3, 0, [0]⟩, ⟨2, 1, [5, 0]⟩, ⟨1, 0, [0]⟩, ⟨3, 1, [4, 0]⟩] 2).2 3).2 =
        (delete (delete [⟨3, 0, [0]⟩, ⟨2, 1, [5, 0]⟩, ⟨1, 0, [0]⟩, ⟨3, 1, [4, 0]⟩] 3).2 2).2 ∧
      (delete [⟨3, 0, [0]⟩, ⟨2, 1, [5, 0]⟩, ⟨1, 0, [0]⟩, ⟨3, 1, [4, 0]⟩] 2).1 =
        (delete (delete [⟨3, 0, [0]⟩, ⟨2, 1, [5, 0]⟩, ⟨1, 0, [0]⟩, ⟨3, 1, [4, 0]⟩] 3).2 2).1 ∧
      (delete (delete [⟨3, 0, [0]⟩, ⟨2, 1, [5, 0]⟩, ⟨1, 0, [0]⟩, ⟨3, 1, [4, 0]⟩] 2).2 3).1 =
        (delete [⟨3, 0, [0]⟩, ⟨2, 1, [5, 0]⟩, ⟨1, 0, [0]⟩, ⟨3, 1, [4, 0]⟩] 3).1) ∧
    (delete (delete [⟨3, 0, [0]⟩, ⟨2, 1, [5, 0]⟩, ⟨1, 0, [0]⟩, ⟨3, 1, [4, 0]⟩] 2).2 3).2 =
      [⟨1, 0, [0]⟩, ⟨3, 1, [4, 0]⟩] :=
  ⟨by decide,
   delete_delete_comm [⟨3, 0, [0]⟩, ⟨2, 1, [5, 0]⟩, ⟨1, 0, [0]⟩, ⟨3, 1, [4, 0]⟩] 2 3
     (by decide),
   by decide⟩

/-! ## Theorems: the loop of deserialize on any buffer -/

/-- C12: the loop parses a record at the cursor exactly when more than 12
bytes remain there. With at most 12 bytes left, and only then, it returns the
list it has. With more than 12 bytes left it reads the header at the cursor and
either faults (the size plus one wraps, or the value leaves the buffer) or
appends the node of that record and goes on behind its value; a record that
lies inside the buffer is parsed, and when at most 12 bytes follow it the loop
returns the list with its node appended. On a returned list, more than 12
bytes at the cursor is the same as the list continuing with a node parsed at
the cursor. So `deserialize` returns the empty list exactly when the buffer has
at most 12 bytes, and on a buffer of more than 12 bytes whose first record lies
inside it with at most 12 bytes behind it returns the node of that record. -/
theorem deserialize_parses_iff_more_than_header (e : Endian) (buf : List Byte) :
    (∀ (fuel pointer : Nat) (list : List KVPAIR),
      deserializeLoop e buf (fuel + 1) pointer list = .ok list ↔
        buf.length ≤ pointer + 12) ∧
    (∀ (fuel pointer : Nat) (list result : List KVPAIR),
      deserializeLoop e buf (fuel + 1) pointer list = .ok result →
        (pointer + 12 < buf.length ↔
          ∃ node rest, result = list ++ node :: rest ∧ entryAt e buf pointer node)) ∧
    (deserialize e buf = .ok [] ↔ buf.length ≤ 12) ∧
    (∀ (fuel pointer : Nat) (list : List KVPAIR), pointer + 12 < buf.length →
      deserializeLoop e buf (fuel + 1) pointer list =
        if (sizeAt e buf pointer + 1) % uintModulus < sizeAt e buf pointer + 1 then
          .error .writePastAlloc
        else if pointer + 12 + sizeAt e buf pointer ≤ buf.length then
          deserializeLoop e buf fuel (pointer + 12 + sizeAt e buf pointer)
            (list ++ [nodeAt e buf pointer])
        else .error .readPastEnd) ∧
    (∀ (fuel pointer : Nat) (list : List KVPAIR), pointer + 12 < buf.length →
      sizeAt e buf pointer + 1 < uintModulus →
      pointer + 12 + sizeAt e buf pointer ≤ buf.length →
      deserializeLoop e buf (fuel + 1) pointer list =
        deserializeLoop e buf fuel (pointer + 12 + sizeAt e buf pointer)
          (list ++ [nodeAt e buf pointer])) ∧
    (∀ (fuel pointer : Nat) (list : List KVPAIR), pointer + 12 < buf.length →
      sizeAt e buf pointer + 1 < uintModulus →
      pointer + 12 + sizeAt e buf pointer ≤ buf.length →
      buf.length ≤ pointer + 12 + sizeAt e buf pointer + 12 →
      deserializeLoop e buf (fuel + 2) pointer list = .ok (list ++ [nodeAt e buf pointer])) ∧
    (12 < buf.length → sizeAt e buf 0 + 1 < uintModulus →
      12 + sizeAt e buf 0 ≤ buf.length → buf.length ≤ 12 + sizeAt e buf 0 + 12 →
      deserialize e buf = .ok [nodeAt e buf 0]) := by
  have hmore : ∀ (fuel pointer : Nat) (list result : List KVPAIR),
      deserializeLoop e buf (fuel + 1) pointer list = .ok result →
      pointer + 12 < buf.length →
      ∃ node rest, result = list ++ node :: rest ∧ entryAt e buf pointer node := by
    intro fuel pointer list result h hc
    obtain ⟨rest, hres, hparsed, hend⟩ := deserializeLoop_ok e buf _ pointer list result h
    cases rest with
    | nil => simp only [cursorAfter] at hend; omega
    | cons node rest => exact ⟨node, rest, hres, hparsed.1⟩
  have hiff : ∀ (fuel pointer : Nat) (list : List KVPAIR),
      deserializeLoop e buf (fuel + 1) pointer list = .ok list ↔
        buf.length ≤ pointer + 12 := by
    intro fuel pointer list
    constructor
    · intro h
      by_contra hc
      obtain ⟨node, rest, hres, _⟩ := hmore fuel pointer list list h (by omega)
      have hlen := congrArg List.length hres
      simp only [List.length_append, List.length_cons] at hlen
      omega
    · exact deserializeLoop_exit e buf fuel pointer list
  refine ⟨hiff, ?_, ?_, ?_, ?_, ?_, ?_⟩
  · intro fuel pointer list result h
    constructor
    · exact hmore fuel pointer list result h
    · rintro ⟨node, rest, hres, _⟩
      by_contra hc
      rw [deserializeLoop_exit e buf fuel pointer list (by omega)] at h
      have hlen := congrArg List.length (hres.symm.trans (Except.ok.inj h).symm)
      simp only [List.length_append, List.length_cons] at hlen
      omega
  · have := hiff buf.length 0 []
    simpa [deserialize] using this
  · intro fuel pointer list hc
    exact deserializeLoop_step_node e buf fuel pointer list hc
  · intro fuel pointer list hc hfit hval
    exact deserializeLoop_parse e buf fuel pointer list hc hfit hval
  · intro fuel pointer list hc hfit hval hend
    exact deserializeLoop_parse_last e buf fuel pointer list hc hfit hval hend
  · intro hc hfit hval hend
    have hfuel : buf.length + 1 = (buf.length - 1) + 2 := by omega
    have h := deserializeLoop_parse_last e buf (buf.length - 1) 0 []
      (by omega) hfit (by omega) (by omega)
    rw [deserialize, hfuel, h, List.nil_append]

/-- Witness for C12: on the 15-byte buffer of the record with key 1 and the
value "abc" the record is parsed and returned; on its first 12 bytes, and on
the 12-byte buffer of a record without value bytes, nothing is parsed. -/
theorem deserialize_parses_iff_more_than_header_witness :
    (12 < (encodeRecords .little [⟨1, [97, 98, 99]⟩]).length ∧
      nodeAt .little (encodeRecords .little [⟨1, [97, 98, 99]⟩]) 0 =
        ⟨1, 3, [97, 98, 99, 0]⟩ ∧
      deserialize .little (encodeRecords .little [⟨1, [97, 98, 99]⟩]) =
        .ok [nodeAt .little (encodeRecords .little [⟨1, [97, 98, 99]⟩]) 0]) ∧
    ((encodeRecords .little [⟨1, [97, 98, 99]⟩]).take 12).length ≤ 12 ∧
    deserialize .little ((encodeRecords .little [⟨1, [97, 98, 99]⟩]).take 12) = .ok [] ∧
    deserialize .big (encodeRecords .big [⟨2, []⟩]) = .ok [] :=
  ⟨⟨by decide, by decide,
    (deserialize_parses_iff_more_than_header .little
      (encodeRecords .little [⟨1, [97, 98, 99]⟩])).2.2.2.2.2.2
      (by decide) (by decide) (by decide) (by decide)⟩,
   by decide,
   (deserialize_parses_iff_more_than_header .little
      ((encodeRecords .little [⟨1, [97, 98, 99]⟩]).take 12)).2.2.1.mpr (by decide),
   (deserialize_parses_iff_more_than_header .big
      (encodeRecords .big [⟨2, []⟩])).2.2.1.mpr (by decide)⟩

/-- C13: in every entry of a list that `deserialize` returns, the block `val`
has `size + 1` bytes: its first `size` bytes are the `size` bytes of the buffer
behind the 12 header bytes at the offset where the cursor stood, its byte at
index `size` is 0, `size` is the number in the header, and the cursor moved on
by exactly `12 + size`. -/
theorem deserialize_value_block (e : Endian) (buf : List Byte) (list : List KVPAIR)
    (h : deserialize e buf = .ok list) (i : Nat) (entry : KVPAIR)
    (hi : list[i]? = some entry) :
    entry.val.length = entry.size + 1 ∧
    entry.val.take entry.size =
      (buf.drop (cursorAfter 0 (list.take i) + 12)).take entry.size ∧
    ((buf.drop (cursorAfter 0 (list.take i) + 12)).take entry.size).length = entry.size ∧
    entry.val[entry.size]? = some 0 ∧
    entry.size = loadUInt e ((buf.drop (cursorAfter 0 (list.take i) + 8)).take 4) ∧
    cursorAfter 0 (list.take (i + 1)) = cursorAfter 0 (list.take i) + 12 + entry.size := by
  obtain ⟨rest, hres, hparsed, _⟩ := deserializeLoop_ok e buf _ 0 [] list h
  rw [List.nil_append] at hres
  subst hres
  obtain ⟨⟨_, _, hsize, _, hval, hblock⟩, hnext⟩ :=
    parsedFrom_getElem e buf 0 list hparsed i entry hi
  have hlen : ((buf.drop (cursorAfter 0 (list.take i) + 12)).take entry.size).length =
      entry.size := by
    rw [List.length_take, List.length_drop]; omega
  refine ⟨?_, ?_, hlen, ?_, hsize, hnext⟩
  · rw [hblock, List.length_append, hlen]; rfl
  · conv_lhs => rw [hblock]
    conv_lhs => arg 1; rw [← hlen]
    rw [List.take_left]
  · conv_lhs => rw [hblock]
    rw [List.getElem?_append_right (by rw [hlen]), hlen]
    simp

/-- Witness for C13: two records on a little-endian host, the entry at
position 1, built with the cursor at offset 15. -/
theorem deserialize_value_block_witness :
    deserialize .little (encodeRecords .little [⟨1, [97, 98, 99]⟩, ⟨-2, [7]⟩]) =
      .ok [⟨1, 3, [97, 98, 99, 0]⟩, ⟨-2, 1, [7, 0]⟩] ∧
    cursorAfter 0 (([⟨1, 3, [97, 98, 99, 0]⟩, ⟨-2, 1, [7, 0]⟩] : List KVPAIR).take 1) = 15 ∧
    ((⟨-2, 1, [7, 0]⟩ : KVPAIR).val.length = (⟨-2, 1, [7, 0]⟩ : KVPAIR).size + 1 ∧
      (⟨-2, 1, [7, 0]⟩ : KVPAIR).val.take (⟨-2, 1, [7, 0]⟩ : KVPAIR).size =
        ((encodeRecords .little [⟨1, [97, 98, 99]⟩, ⟨-2, [7]⟩]).drop
          (cursorAfter 0
            (([⟨1, 3, [97, 98, 99, 0]⟩, ⟨-2, 1, [7, 0]⟩] : List KVPAIR).take 1) + 12)).take
          (⟨-2, 1, [7, 0]⟩ : KVPAIR).size ∧
      (((encodeRecords .little [⟨1, [97, 98, 99]⟩, ⟨-2, [7]⟩]).drop
          (cursorAfter 0
            (([⟨1, 3, [97, 98, 99, 0]⟩, ⟨-2, 1, [7, 0]⟩] : List KVPAIR).take 1) + 12)).take
          (⟨-2, 1, [7, 0]⟩ : KVPAIR).size).length = (⟨-2, 1, [7, 0]⟩ : KVPAIR).size ∧
      (⟨-2, 1, [7, 0]⟩ : KVPAIR).val[(⟨-2, 1, [7, 0]⟩ : KVPAIR).size]? = some 0 ∧
      (⟨-2, 1, [7, 0]⟩ : KVPAIR).size =
        loadUInt .little (((encodeRecords .little [⟨1, [97, 98, 99]⟩, ⟨-2, [7]⟩]).drop
          (cursorAfter 0
            (([⟨1, 3, [97, 98, 99, 0]⟩, ⟨-2, 1, [7, 0]⟩] : List KVPAIR).take 1) + 8)).take 4) ∧
      cursorAfter 0 (([⟨1, 3, [97, 98, 99, 0]⟩, ⟨-2, 1, [7, 0]⟩] : List KVPAIR).take (1 + 1)) =
        cursorAfter 0 (([⟨1, 3, [97, 98, 99, 0]⟩, ⟨-2, 1, [7, 0]⟩] : List KVPAIR).take 1) +
          12 + (⟨-2, 1, [7, 0]⟩ : KVPAIR).size) :=
  ⟨by decide, by decide,
   deserialize_value_block .little (encodeRecords .little [⟨1, [97, 98, 99]⟩, ⟨-2, [7]⟩])
     [⟨1, 3, [97, 98, 99, 0]⟩, ⟨-2, 1, [7, 0]⟩] (by decide) 1 ⟨-2, 1, [7, 0]⟩ (by decide)⟩

/-- C17: `deserialize` leaves its loop on every buffer: the budget of
`buf.length + 1` iterations is never used up and a larger budget gives the same
result; every iteration starts with more than 12 bytes left at the cursor and
moves the cursor by `12 + size`, at least 12; so a returned list of `n` entries
has `12 * n < buf.length` when the buffer is not empty. -/
theorem deserialize_terminates (e : Endian) (buf : List Byte) :
    deserialize e buf ≠ .error .outOfFuel ∧
    (∀ extra : Nat, deserializeLoop e buf (buf.length + 1 + extra) 0 [] = deserialize e buf) ∧
    (∀ list : List KVPAIR, deserialize e buf = .ok list →
      (∀ (i : Nat) (entry : KVPAIR), list[i]? = some entry →
        cursorAfter 0 (list.take i) + 12 < buf.length ∧
        cursorAfter 0 (list.take (i + 1)) =
          cursorAfter 0 (list.take i) + 12 + entry.size ∧
        cursorAfter 0 (list.take i) + 12 ≤ cursorAfter 0 (list.take (i + 1))) ∧
      (buf ≠ [] → 12 * list.length < buf.length)) := by
  refine ⟨?_, ?_, ?_⟩
  · exact deserializeLoop_fuel e buf (buf.length + 1) 0 [] (by omega) (by omega)
  · intro extra
    exact deserializeLoop_more_fuel e buf (buf.length + 1) extra 0 [] (by omega) (by omega)
  · intro list h
    obtain ⟨rest, hres, hparsed, _⟩ := deserializeLoop_ok e buf _ 0 [] list h
    rw [List.nil_append] at hres
    subst hres
    constructor
    · intro i entry hi
      obtain ⟨⟨hc, _⟩, hnext⟩ := parsedFrom_getElem e buf 0 list hparsed i entry hi
      exact ⟨hc, hnext, by omega⟩
    · intro hne
      by_cases hl : list = []
      · subst hl
        have := List.length_pos.mpr hne
        simpa using this
      · have := parsedFrom_bound e buf 0 list hparsed hl
        omega

/-! ## Theorems: deserialize on records -/

/-- C16: on a buffer that is a concatenation of well-formed records the run of
`deserialize` never takes the out-of-bounds branch of a read, and the 8 key
bytes, the 4 size bytes and the `size` value bytes of every record lie inside
the buffer: each of these reads returns the bytes of the record. -/
theorem deserialize_reads_in_bounds (e : Endian) (rs : List Record)
    (hwf : ∀ r ∈ rs, r.WellFormed) :
    deserialize e (encodeRecords e rs) ≠ .error .readPastEnd ∧
    ∀ (i : Nat) (r : Record), rs[i]? = some r →
      (encodeRecords e (rs.take i)).length + 12 + r.value.length ≤
        (encodeRecords e rs).length ∧
      readBytes (encodeRecords e rs) (encodeRecords e (rs.take i)).length sizeofLong =
        .ok (storeLong e r.key) ∧
      readBytes (encodeRecords e rs) ((encodeRecords e (rs.take i)).length + sizeofLong)
        sizeofUInt = .ok (hostBytes e sizeofUInt r.value.length) ∧
      readBytes (encodeRecords e rs)
        ((encodeRecords e (rs.take i)).length + sizeofLong + sizeofUInt) r.value.length =
        .ok r.value := by
  constructor
  · rcases deserialize_wellFormed e rs hwf with hok | herr
    · rw [hok]; exact fun h => Except.noConfusion h
    · rw [herr]; exact fun h => Fault.noConfusion (Except.error.inj h)
  · intro i r hr
    obtain ⟨hi, hget⟩ := List.getElem?_eq_some_iff.mp hr
    have hsplit : rs = rs.take i ++ r :: rs.drop (i + 1) := by
      rw [← hget, ← List.drop_eq_getElem_cons hi, List.take_append_drop]
    have hbuf : encodeRecords e rs = encodeRecords e (rs.take i) ++
        (encodeRecord e r ++ encodeRecords e (rs.drop (i + 1))) := by
      conv_lhs => rw [hsplit]
      rw [encodeRecords_append, encodeRecords]
    refine ⟨?_, ?_, ?_, ?_⟩
    · rw [hbuf]
      simp only [List.length_append, encodeRecord_length]; omega
    · exact readBytes_of_split _ (encodeRecords e (rs.take i)) (storeLong e r.key)
        ((hostBytes e sizeofUInt r.value.length ++ r.value) ++
          encodeRecords e (rs.drop (i + 1))) _ _
        (by rw [hbuf]; simp [encodeRecord]) rfl (by simp [storeLong_length, sizeofLong])
    · exact readBytes_of_split _ (encodeRecords e (rs.take i) ++ storeLong e r.key)
        (hostBytes e sizeofUInt r.value.length)
        (r.value ++ encodeRecords e (rs.drop (i + 1))) _ _
        (by rw [hbuf]; simp [encodeRecord]) (by simp [storeLong_length, sizeofLong])
        (by simp [hostBytes_length])
    · exact readBytes_of_split _
        (encodeRecords e (rs.take i) ++ storeLong e r.key ++
          hostBytes e sizeofUInt r.value.length)
        r.value (encodeRecords e (rs.drop (i + 1))) _ _
        (by rw [hbuf]; simp [encodeRecord])
        (by simp only [List.length_append, storeLong_length, hostBytes_length, sizeofLong])
        rfl

/-- Witness for C16: a record with three value bytes followed by a record with
none, on a little-endian host; the reads of the record at position 1. -/
theorem deserialize_reads_in_bounds_witness :
    (∀ r ∈ ([⟨1, [97, 98, 99]⟩, ⟨2, []⟩] : List Record), r.WellFormed) ∧
    deserialize .little (encodeRecords .little [⟨1, [97, 98, 99]⟩, ⟨2, []⟩]) ≠
      .error .readPastEnd ∧
    ((encodeRecords .little (([⟨1, [97, 98, 99]⟩, ⟨2, []⟩] : List Record).take 1)).length +
        12 + (⟨2, []⟩ : Record).value.length ≤
        (encodeRecords .little [⟨1, [97, 98, 99]⟩, ⟨2, []⟩]).length ∧
      readBytes (encodeRecords .little [⟨1, [97, 98, 99]⟩, ⟨2, []⟩])
        (encodeRecords .little (([⟨1, [97, 98, 99]⟩, ⟨2, []⟩] : List Record).take 1)).length
        sizeofLong = .ok (storeLong .little (⟨2, []⟩ : Record).key) ∧
      readBytes (encodeRecords .little [⟨1, [97, 98, 99]⟩, ⟨2, []⟩])
        ((encodeRecords .little
          (([⟨1, [97, 98, 99]⟩, ⟨2, []⟩] : List Record).take 1)).length + sizeofLong)
        sizeofUInt = .ok (hostBytes .little sizeofUInt (⟨2, []⟩ : Record).value.length) ∧
      readBytes (encodeRecords .little [⟨1, [97, 98, 99]⟩, ⟨2, []⟩])
        ((encodeRecords .little
          (([⟨1, [97, 98, 99]⟩, ⟨2, []⟩] : List Record).take 1)).length + sizeofLong +
            sizeofUInt)
        (⟨2, []⟩ : Record).value.length = .ok (⟨2, []⟩ : Record).value) :=
  ⟨by decide,
   (deserialize_reads_in_bounds .little [⟨1, [97, 98, 99]⟩, ⟨2, []⟩] (by decide)).1,
   (deserialize_reads_in_bounds .little [⟨1, [97, 98, 99]⟩, ⟨2, []⟩] (by decide)).2 1
     ⟨2, []⟩ (by decide)⟩

/-- C14: the buffer made of the one well-formed record with key 1 and
`UINT_MAX` value bytes: the size plus one wraps to 0 in `unsigned int`, the
block is too small for the copy of the value, and no list of one entry is
returned. -/
theorem deserialize_uint_max_record (e : Endian) :
    (uintMaxRecord 1).WellFormed ∧
    (uintMaxRecord 1).value.length = 4294967295 ∧
    deserialize e (encodeRecords e [uintMaxRecord 1]) = .error .writePastAlloc := by
  have hwf : (uintMaxRecord 1).WellFormed :=
    uintMaxRecord_wellFormed 1 (by norm_num) (by norm_num)
  have hlen := uintMaxRecord_length 1
  refine ⟨hwf, ?_, ?_⟩
  · simp only [uintModulus] at hlen
    omega
  · have h := deserializeLoop_records_overflow e [] (uintMaxRecord 1) []
      (fun r hr => absurd hr (List.not_mem_nil r)) hwf hlen []
      ((encodeRecords e [uintMaxRecord 1]).length + 1) (by simp only [List.length_nil]; omega) []
    rw [List.nil_append] at h
    rw [deserialize]
    exact h

/-- C15: the buffer made of the well-formed record with key 1 and `UINT_MAX`
value bytes followed by the record with key 2 and no value bytes: the run
faults on the first record, and the list of the first record alone is not
returned. -/
theorem deserialize_uint_max_then_empty_record (e : Endian) :
    (uintMaxRecord 1).WellFormed ∧ Record.WellFormed ⟨2, []⟩ ∧
    (⟨2, []⟩ : Record).value.length = 0 ∧
    deserialize e (encodeRecords e [uintMaxRecord 1, ⟨2, []⟩]) = .error .writePastAlloc := by
  have hwf : (uintMaxRecord 1).WellFormed :=
    uintMaxRecord_wellFormed 1 (by norm_num) (by norm_num)
  refine ⟨hwf, by decide, rfl, ?_⟩
  have h := deserializeLoop_records_overflow e [] (uintMaxRecord 1) [⟨2, []⟩]
    (fun r hr => absurd hr (List.not_mem_nil r)) hwf (uintMaxRecord_length 1) []
    ((encodeRecords e [uintMaxRecord 1, ⟨2, []⟩]).length + 1)
    (by simp only [List.length_nil]; omega) []
  rw [List.nil_append] at h
  rw [deserialize]
  exact h

/-! ## Theorems: deserialize on a truncated record -/

/-- C11, as the code behaves: when the header of a record declares a size
(below `UINT_MAX`) that is larger than the non-zero number of bytes left behind
the header, after any well-formed records with sizes below `UINT_MAX`, the run
of `deserialize` takes the out-of-bounds branch of the read of the value:
nothing compares the size with the bytes that remain. -/
theorem deserialize_truncated_record (e : Endian) (rs : List Record)
    (hwf : ∀ r ∈ rs, r.WellFormed ∧ r.value.length + 1 < uintModulus)
    (k : Int) (s : Nat) (tail : List Byte) (hs : s + 1 < uintModulus)
    (h0 : tail ≠ []) (hshort : tail.length < s) :
    deserialize e
        (encodeRecords e rs ++ (storeLong e k ++ (hostBytes e sizeofUInt s ++ tail))) =
      .error .readPastEnd := by
  have hmore : storeLong e k ++ (hostBytes e sizeofUInt s ++ tail) ≠ [] := by
    intro hnil
    have := congrArg List.length hnil
    simp only [List.length_append, storeLong_length, List.length_nil] at this
    omega
  have hlen := encodeRecords_length_ge e rs
  have hfuel : (encodeRecords e rs ++
      (storeLong e k ++ (hostBytes e sizeofUInt s ++ tail))).length + 1 =
      ((encodeRecords e rs ++
        (storeLong e k ++ (hostBytes e sizeofUInt s ++ tail))).length - rs.length) + 1 +
        rs.length := by
    simp only [List.length_append]; omega
  have h1 := deserializeLoop_records_more e rs hwf _ hmore []
    ((encodeRecords e rs ++
      (storeLong e k ++ (hostBytes e sizeofUInt s ++ tail))).length - rs.length + 1) []
  have h2 := deserializeLoop_truncated e (encodeRecords e rs) k s tail hs h0 hshort
    ((encodeRecords e rs ++
      (storeLong e k ++ (hostBytes e sizeofUInt s ++ tail))).length - rs.length)
    ([] ++ rs.map Record.toEntry)
  simp only [List.nil_append, List.length_nil] at h1
  rw [deserialize, hfuel, h1]
  exact h2

/-- Witness for C11: the scenario of the claim on a big-endian host, a header
that declares 100 value bytes with 10 bytes behind it. -/
theorem deserialize_truncated_record_witness :
    (∀ r ∈ ([] : List Record), r.WellFormed ∧ r.value.length + 1 < uintModulus) ∧
    100 + 1 < uintModulus ∧
    ([1, 2, 3, 4, 5, 6, 7, 8, 9, 10] : List Byte) ≠ [] ∧
    ([1, 2, 3, 4, 5, 6, 7, 8, 9, 10] : List Byte).length < 100 ∧
    deserialize .big
        (encodeRecords .big [] ++ (storeLong .big 1 ++
          (hostBytes .big sizeofUInt 100 ++ [1, 2, 3, 4, 5, 6, 7, 8, 9, 10]))) =
      .error .readPastEnd :=
  ⟨by decide, by decide, by decide, by decide,
   deserialize_truncated_record .big [] (by decide) 1 100 [1, 2, 3, 4, 5, 6, 7, 8, 9, 10]
     (by decide) (by decide) (by decide)⟩

/-- Counterexample for C11: on the 22-byte buffer of a little-endian host with
key 1, declared size 100 and 10 bytes behind the header, the copy of the value
asks for the bytes at offsets 12 to 111 of a buffer that ends at offset 22; the
run ends in the out-of-bounds read, not in a reported error. -/
theorem deserialize_truncated_scenario :
    ([1, 0, 0, 0, 0, 0, 0, 0, 100, 0, 0, 0, 1, 2, 3, 4, 5, 6, 7, 8, 9, 10] :
      List Byte).length = 22 ∧
    loadUInt .little [100, 0, 0, 0] = 100 ∧
    readBytes [1, 0, 0, 0, 0, 0, 0, 0, 100, 0, 0, 0, 1, 2, 3, 4, 5, 6, 7, 8, 9, 10] 12 100 =
      .error .readPastEnd ∧
    deserialize .little
        [1, 0, 0, 0, 0, 0, 0, 0, 100, 0, 0, 0, 1, 2, 3, 4, 5, 6, 7, 8, 9, 10] =
      .error .readPastEnd := by
  decide

end KvStore
